import Mathlib

set_option maxHeartbeats 1000000

namespace NbSerde

/-- Error value mirroring `error.rs`: a human-readable message plus an optional
wrapped causal error, modelled by the display text of the wrapped error.
`Error::new(msg, cause)` is `⟨msg, cause⟩`; `serde::de::Error::custom(msg)` /
`serde::ser::Error::custom(msg)` is `⟨msg, none⟩`. -/
structure Err where
  message : String
  cause : Option String
deriving DecidableEq, Repr

mutual
/-- Structured in-memory values the codec handles: string and i32 scalars,
optionals, repeated-key sequences, and records with named fields (mirroring the
serde data-model subset exercised by the crate's structs). -/
inductive Value where
  | vStr (s : String)
  | vI32 (n : Int)
  | vNone
  | vSome (w : Value)
  | vSeq (elems : ValueList)
  | vStruct (fields : FieldVals)
deriving DecidableEq, Repr

inductive ValueList where
  | nil
  | cons (v : Value) (rest : ValueList)
deriving DecidableEq, Repr

inductive FieldVals where
  | nil
  | cons (name : String) (v : Value) (rest : FieldVals)
deriving DecidableEq, Repr
end

mutual
/-- Target shapes for deserialization: the statically-known field structure a
`#[derive(Deserialize)]` struct presents to the `Deserializer`. -/
inductive Shape where
  | sStr
  | sI32
  | sOpt (s : Shape)
  | sSeq (s : Shape)
  | sStruct (fields : FieldShapes)
deriving DecidableEq, Repr

inductive FieldShapes where
  | nil
  | cons (name : String) (s : Shape) (rest : FieldShapes)
deriving DecidableEq, Repr
end

/-- Base-10 digit characters of a natural, most significant first; structural
recursion on a fuel bound so that the kernel can evaluate it. Any `fuel` with
`n < 10 ^ fuel` yields the full digit string. -/
def natDigitsAux : Nat → Nat → List Char
  | 0, _ => []
  | fuel + 1, n =>
    if n < 10 then [Nat.digitChar n]
    else natDigitsAux fuel (n / 10) ++ [Nat.digitChar (n % 10)]

/-- Base-10 digit characters of a natural, most significant first. -/
def natDigits (n : Nat) : List Char :=
  natDigitsAux (n + 1) n

/-- Decimal text of an `i32` value, mirroring Rust's integer `Display`. -/
def intToText (n : Int) : String :=
  if n < 0 then ⟨'-' :: natDigits n.natAbs⟩ else ⟨natDigits n.natAbs⟩

/-- State of the `Serializer` struct in `lib.rs` (output is the `String` buffer,
kept as a character list). -/
structure SState where
  is_first : Bool
  output : List Char
  curr_key : Option String
  is_first_elem_of_seq : Bool
  is_first_elem_of_struct : Bool
deriving DecidableEq, Repr

/-- One run of `while let Some(c) = self.output.pop() { if c == '&' { break } }`
on the reversed buffer: drops characters until an `'&'` has been dropped. -/
def popAmpAux : List Char → List Char
  | [] => []
  | c :: rest => if c = '&' then rest else popAmpAux rest

/-- The serializer's retraction: remove trailing characters back to and
including the most recent `'&'` (or empty the buffer if none). -/
def popAmp (out : List Char) : List Char :=
  (popAmpAux out.reverse).reverse

mutual
/-- `value.serialize(&mut serializer)` for the supported serde cases of
`impl serde::Serializer for &mut Serializer` in `lib.rs`: scalars append their
text, `serialize_none` retracts to the last `'&'` (resetting `is_first` on an
emptied buffer), `serialize_some` forwards, `serialize_seq` sets
`is_first_elem_of_seq`, `serialize_struct` sets `is_first_elem_of_struct`. -/
def serValue : Value → SState → Except Err SState
  | .vStr s, st => .ok { st with output := st.output ++ s.data }
  | .vI32 n, st => .ok { st with output := st.output ++ (intToText n).data }
  | .vNone, st =>
    let out := popAmp st.output
    .ok { st with output := out, is_first := if out.isEmpty then true else st.is_first }
  | .vSome w, st => serValue w st
  | .vSeq vs, st => serElems vs { st with is_first_elem_of_seq := true }
  | .vStruct fs, st => serFields fs { st with is_first_elem_of_struct := true }

/-- The `SerializeSeq::serialize_element` loop of `lib.rs`: fail on a missing
current key, retract once before the first element, then write
`[&]key=<element>` for each element. -/
def serElems : ValueList → SState → Except Err SState
  | .nil, st => .ok st
  | .cons v rest, st =>
    match st.curr_key with
    | none => .error ⟨"empty key for sequence", none⟩
    | some key =>
      let st1 := if st.is_first_elem_of_seq then
          { st with output := popAmp st.output, is_first_elem_of_seq := false } else st
      let st2 := { st1 with
        output := st1.output ++ (if st1.is_first then [] else ['&']) ++ key.data ++ ['='] }
      match serValue v st2 with
      | .error e => .error e
      | .ok st3 => serElems rest st3

/-- The `SerializeStruct::serialize_field` loop of `lib.rs`: retract once on the
first field of a freshly opened struct, remember the key, write `[&]key=`, then
serialize the field value. -/
def serFields : FieldVals → SState → Except Err SState
  | .nil, st => .ok st
  | .cons k v rest, st =>
    let st1 := if st.is_first_elem_of_struct then
        { st with output := popAmp st.output, is_first_elem_of_struct := false } else st
    let st2 := { st1 with curr_key := some k }
    let sep : List Char := if st2.is_first then [] else ['&']
    let st3 := { st2 with output := st2.output ++ sep, is_first := false }
    let st4 := { st3 with output := st3.output ++ k.data ++ ['='] }
    match serValue v st4 with
    | .error e => .error e
    | .ok st5 => serFields rest st5
end

/-- `Serializer::new()`. -/
def serInit : SState :=
  { is_first := true, output := [], curr_key := none,
    is_first_elem_of_seq := false, is_first_elem_of_struct := false }

/-- `nb_serde_query::to_string`: run the serializer from a fresh state and
return its output buffer. -/
def to_string (v : Value) : Except Err String :=
  match serValue v serInit with
  | .error e => .error e
  | .ok st => .ok ⟨st.output⟩

/-- Rust's `str::split(sep)` on a character pattern: always at least one piece;
adjacent separators and leading/trailing separators give empty pieces. -/
def splitOnChar (sep : Char) : List Char → List (List Char)
  | [] => [[]]
  | c :: rest =>
    match splitOnChar sep rest with
    | [] => [[]]
    | p :: ps => if c = sep then [] :: p :: ps else (c :: p) :: ps

/-- The decoder's intermediate map `HashMap<String, Vec<String>>`, modelled as
an association list with unique keys (all accesses are by key). -/
abbrev AList := List (String × List String)

/-- `m.get(k)` on the association list. -/
def lookupKey (k : String) : AList → Option (List String)
  | [] => none
  | (k', vs) :: rest => if k' = k then some vs else lookupKey k rest

/-- `m.remove(k)`: the removed values together with the remaining map, or
`none` when the key is absent. -/
def removeKey (k : String) : AList → Option (List String × AList)
  | [] => none
  | (k', vs) :: rest =>
    if k' = k then some (vs, rest)
    else
      match removeKey k rest with
      | none => none
      | some (v, rest') => some (v, (k', vs) :: rest')

/-- `m.entry(key).or_default().push(val)`: append `v` to the key's value list,
inserting the key if absent. -/
def insertVal (k v : String) : AList → AList
  | [] => [(k, [v])]
  | (k', vs) :: rest =>
    if k' = k then (k', vs ++ [v]) :: rest else (k', vs) :: insertVal k v rest

/-- The `try_fold` in `Deserializer::try_from_str`: each `&`-piece must split on
`=` into exactly a key and a value; a piece with no `=` fails with
`"invalid value"` (the second `next()` returns `None`), and a piece with two or
more `=` fails with `"invalid pair"`. -/
def parsePiecesAux : List (List Char) → AList → Except Err AList
  | [], m => .ok m
  | p :: rest, m =>
    match splitOnChar '=' p with
    | [k, v] => parsePiecesAux rest (insertVal ⟨k⟩ ⟨v⟩ m)
    | [_] => .error ⟨"invalid value", none⟩
    | [] => .error ⟨"invalid key", none⟩
    | _ => .error ⟨"invalid pair", none⟩

/-- `Deserializer::try_from_str`'s parsing pass: split the input on `&` and
fold the pieces into the multi-valued key map. -/
def parsePairs (s : String) : Except Err AList :=
  parsePiecesAux (splitOnChar '&' s.data) []

/-- Rust's `str::parse::<i32>` digit loop: magnitude accumulation with an
overflow check at every step (`2^31` for negative inputs, `2^31 - 1` for
non-negative ones), failing on the first non-digit character. -/
def parseI32digits (neg : Bool) : List Char → Nat → Except String Nat
  | [], acc => .ok acc
  | c :: rest, acc =>
    if c.isDigit then
      let acc' := acc * 10 + (c.toNat - 48)
      if neg then
        if acc' > 2147483648 then .error "number too small to fit in target type"
        else parseI32digits neg rest acc'
      else
        if acc' > 2147483647 then .error "number too large to fit in target type"
        else parseI32digits neg rest acc'
    else .error "invalid digit found in string"

/-- Rust's `str::parse::<i32>`: optional sign, then the digit loop; the empty
string and a bare sign fail. -/
def parseI32 (s : String) : Except String Int :=
  match s.data with
  | [] => .error "cannot parse integer from empty string"
  | c :: rest =>
    if c = '-' then
      if rest.isEmpty then .error "invalid digit found in string"
      else
        match parseI32digits true rest 0 with
        | .error e => .error e
        | .ok mag => .ok (-(mag : Int))
    else if c = '+' then
      if rest.isEmpty then .error "invalid digit found in string"
      else
        match parseI32digits false rest 0 with
        | .error e => .error e
        | .ok mag => .ok (mag : Int)
    else
      match parseI32digits false (c :: rest) 0 with
      | .error e => .error e
      | .ok mag => .ok (mag : Int)

/-- The `MapAccess` loop driven by a derived struct visitor, mirroring
`deserialize_struct` + `next_key_seed` + `next_value_seed` of `lib.rs`. Field
names are popped from the END of the declared list (`Vec::pop`), so the
recursion first processes the tail (later fields), then the head. For each
field, `m.remove(name)` either installs the values as the current value or
leaves the previous current value in place, after which the field's shape is
decoded by the callback `dec`; the resulting map and current value thread into
the next field. Results are assembled in declared order. -/
def decodeFieldsF
    (dec : Shape → AList → Option (List String) →
      Except Err (Value × Option (List String))) :
    FieldShapes → AList → Option (List String) →
      Except Err (FieldVals × AList × Option (List String))
  | .nil, m, cv => .ok (.nil, m, cv)
  | .cons k sh rest, m, cv =>
    match decodeFieldsF dec rest m cv with
    | .error e => .error e
    | .ok (vs, m1, cv1) =>
      let next : AList × Option (List String) :=
        match removeKey k m1 with
        | some (v, m') => (m', some v)
        | none => (m1, cv1)
      match dec sh next.1 next.2 with
      | .error e => .error e
      | .ok (v, cv3) => .ok (.cons k v vs, next.1, cv3)

/-- The `SeqAccess::next_element_seed` loop of `lib.rs`: pop values from the
front of the current value list and decode each one against a fresh
deserializer holding a clone of the map and a singleton current value. -/
def decodeElemsF
    (dec : AList → Option (List String) → Except Err (Value × Option (List String)))
    (m : AList) : List String → Except Err ValueList
  | [] => .ok .nil
  | v :: rest =>
    match dec m (some [v]) with
    | .error e => .error e
    | .ok (x, _) =>
      match decodeElemsF dec m rest with
      | .error e => .error e
      | .ok xs => .ok (.cons x xs)

/-- The shape-directed decode driven by `impl serde::Deserializer for
&mut Deserializer` in `lib.rs`, with a structural fuel argument so the kernel
can evaluate it (any fuel at least the shape's nesting depth gives the same
result). Scalars take the current value and read its first entry;
`deserialize_option` takes the current value and yields `none` on absence or an
empty value list; `deserialize_seq` streams the current value list;
`deserialize_struct` runs the field map loop on a clone of the map with a fresh
(empty) current value, leaving the caller's current value untouched. -/
def decodeShapeF : Nat → Shape → AList → Option (List String) →
    Except Err (Value × Option (List String))
  | 0, _, _, _ => .error ⟨"recursion limit", none⟩
  | fuel + 1, sh, m, cv =>
    match sh with
    | .sStr =>
      match cv with
      | none => .error ⟨"no string value", none⟩
      | some [] => .error ⟨"no string value", none⟩
      | some (s :: _) => .ok (.vStr s, none)
    | .sI32 =>
      match cv with
      | none => .error ⟨"no i32 value", none⟩
      | some [] => .error ⟨"no i32 value", none⟩
      | some (s :: _) =>
        match parseI32 s with
        | .error e => .error ⟨"invalid i32 literial", some e⟩
        | .ok n => .ok (.vI32 n, none)
    | .sOpt sh1 =>
      match cv with
      | none => .ok (.vNone, none)
      | some [] => .ok (.vNone, none)
      | some (s :: rest) =>
        match decodeShapeF fuel sh1 m (some (s :: rest)) with
        | .error e => .error e
        | .ok (w, _) => .ok (.vSome w, none)
    | .sSeq sh1 =>
      match cv with
      | none => .ok (.vSeq .nil, none)
      | some vals =>
        match decodeElemsF (decodeShapeF fuel sh1) m vals with
        | .error e => .error e
        | .ok ws => .ok (.vSeq ws, some [])
    | .sStruct fs =>
      match decodeFieldsF (decodeShapeF fuel) fs m none with
      | .error e => .error e
      | .ok (fvs, _, _) => .ok (.vStruct fvs, cv)

mutual
/-- Nesting depth of a shape: the fuel needed by `decodeShapeF`. -/
def shapeDepth : Shape → Nat
  | .sStr => 1
  | .sI32 => 1
  | .sOpt s => shapeDepth s + 1
  | .sSeq s => shapeDepth s + 1
  | .sStruct fs => fieldsDepth fs + 1

/-- Maximum nesting depth over a field list. -/
def fieldsDepth : FieldShapes → Nat
  | .nil => 0
  | .cons _ s rest => max (shapeDepth s) (fieldsDepth rest)
end

/-- Shape-directed decoding with exactly enough fuel: the fuel-free view of
`decodeShapeF` used by all specifications. -/
def decode (sh : Shape) (m : AList) (cv : Option (List String)) :
    Except Err (Value × Option (List String)) :=
  decodeShapeF (shapeDepth sh) sh m cv

/-- `nb_serde_query::from_str` for a target struct of shape `sh`: build the
key map via `Deserializer::try_from_str`, then run `T::deserialize`. -/
def from_str (sh : Shape) (s : String) : Except Err Value :=
  match parsePairs s with
  | .error e => .error e
  | .ok m =>
    match decode sh m none with
    | .error e => .error e
    | .ok (v, _) => .ok v

/-- Outcome of the actix-web `Query<T>` extractor. -/
inductive ExtractOutcome where
  | ok (v : Value)
  | badRequest (e : Err)
deriving DecidableEq, Repr

/-- `Query::<T>::from_request` in `actix_web.rs`: run `from_str` on the raw
query string; a decode failure becomes a bad-request error response. -/
def queryFromRequest (sh : Shape) (queryString : String) : ExtractOutcome :=
  match from_str sh queryString with
  | .ok v => .ok v
  | .error e => .badRequest e

/-- `deserialize_string`: take the current value and clone its first entry. -/
def deserializeString (cv : Option (List String)) :
    Except Err (String × Option (List String)) :=
  match cv with
  | none => .error ⟨"no string value", none⟩
  | some [] => .error ⟨"no string value", none⟩
  | some (s :: _) => .ok (s, none)

/-- `impl Deserialize for Array<T>` in `lib.rs`: deserialize a `String` from
the underlying deserializer, then hand it to the external array sub-codec
(`serde_json::from_str` in the crate); a sub-codec failure is mapped through
`serde::de::Error::custom`, which builds an `Error` with `cause: None`. The
sub-codec is a parameter, as the spec treats it as an external collaborator. -/
def arrayDeserialize (sub : String → Except String (List String))
    (cv : Option (List String)) :
    Except Err (List String × Option (List String)) :=
  match deserializeString cv with
  | .error e => .error e
  | .ok (s, cv') =>
    match sub s with
    | .error msg => .error ⟨msg, none⟩
    | .ok xs => .ok (xs, cv')

/-- `from_str` for a single-field struct `{ ids: Array<String> }`: the field
loop removes the key's values and `Array::deserialize` consumes them. -/
def fromStrArrayIds (sub : String → Except String (List String)) (s : String) :
    Except Err (List String) :=
  match parsePairs s with
  | .error e => .error e
  | .ok m =>
    match removeKey "ids" m with
    | some (v, _) =>
      match arrayDeserialize sub (some v) with
      | .error e => .error e
      | .ok (xs, _) => .ok xs
    | none =>
      match arrayDeserialize sub none with
      | .error e => .error e
      | .ok (xs, _) => .ok xs

deriving instance DecidableEq for Except

/-- Wire text of one `key=value` pair. -/
def renderPair (p : String × String) : List Char :=
  p.1.data ++ '=' :: p.2.data

/-- Wire text of the pairs after the first, each preceded by `'&'`. -/
def renderTail : List (String × String) → List Char
  | [] => []
  | p :: ps => '&' :: (renderPair p ++ renderTail ps)

/-- Wire text of a pair list: `k1=v1&k2=v2&...`. -/
def renderPairs : List (String × String) → List Char
  | [] => []
  | p :: ps => renderPair p ++ renderTail ps

/-- A string usable as a wire key or value: free of the two separators. -/
def wfText (s : String) : Bool :=
  s.data.all fun c => c ≠ '&' && c ≠ '='

/-- The input has a piece with no `=` or more than one `=`, which the pair
parser rejects. -/
def hasMalformedPiece (s : String) : Bool :=
  (splitOnChar '&' s.data).any fun p => (splitOnChar '=' p).length ≠ 2

/-- The record of the repository's `test_to_string` test: `{name:"test",
age:37, pagination:{limit:10, offset:0}, ids:[1,2], hobbies:Some(["moto",
"code"]), op:Some("some")}`. -/
def seVal : Value :=
  .vStruct (.cons "name" (.vStr "test") (.cons "age" (.vI32 37)
    (.cons "pagination"
      (.vStruct (.cons "limit" (.vI32 10) (.cons "offset" (.vI32 0) .nil)))
    (.cons "ids" (.vSeq (.cons (.vI32 1) (.cons (.vI32 2) .nil)))
    (.cons "hobbies"
      (.vSome (.vSeq (.cons (.vStr "moto") (.cons (.vStr "code") .nil))))
    (.cons "op" (.vSome (.vStr "some")) .nil))))))

/-- A record whose only field is an absent optional string. -/
def c1CexVal : Value := .vStruct (.cons "op" .vNone .nil)

/-- Target shape matching `c1CexVal`: one optional string field. -/
def c1CexShape : Shape := .sStruct (.cons "op" (.sOpt .sStr) .nil)

/-- A record whose only field is the sequence `ids = [1, 2, 3]`. -/
def c3CexVal : Value :=
  .vStruct (.cons "ids"
    (.vSeq (.cons (.vI32 1) (.cons (.vI32 2) (.cons (.vI32 3) .nil)))) .nil)

/-- Shape of a record with a single repeated-key `i32` sequence field `ids`. -/
def c3IdsShape : Shape := .sStruct (.cons "ids" (.sSeq .sI32) .nil)

/-- A record with a string field followed by an empty sequence field. -/
def c4Val : Value :=
  .vStruct (.cons "name" (.vStr "t") (.cons "ids" (.vSeq .nil) .nil))

/-- Shape matching `c4Val`. -/
def c4Shape : Shape :=
  .sStruct (.cons "name" .sStr (.cons "ids" (.sSeq .sI32) .nil))

/-- Target shape of claim C6: top-level `age`, `name` and a nested
`pagination { limit, offset }` record field. -/
def c6Shape : Shape :=
  .sStruct (.cons "age" .sI32 (.cons "name" .sStr
    (.cons "pagination"
      (.sStruct (.cons "limit" .sI32 (.cons "offset" .sI32 .nil))) .nil)))

/-- Expected decode result of claim C6. -/
def c6Expected : Value :=
  .vStruct (.cons "age" (.vI32 37) (.cons "name" (.vStr "test")
    (.cons "pagination"
      (.vStruct (.cons "limit" (.vI32 10) (.cons "offset" (.vI32 0) .nil))) .nil)))

/-- The four `key=value` pairs of claim C6's input text. -/
def c6Pairs : List (String × String) :=
  [("age", "37"), ("name", "test"), ("limit", "10"), ("offset", "0")]

/-- Target shape of claim C8: one required `i32` field `age`. -/
def c8Shape : Shape := .sStruct (.cons "age" .sI32 .nil)

/-- A record whose only field is the empty sequence `ids = []`. -/
def c4CexVal : Value := .vStruct (.cons "ids" (.vSeq .nil) .nil)

/-- A concrete failing array sub-codec, standing in for a `serde_json` parse
failure on a value that is not a JSON array. -/
def failingSub : String → Except String (List String) :=
  fun _ => .error "expected value at line 1 column 1"

/-- Drop every entry of the map with the given key. -/
def filterKey (k : String) : AList → AList
  | [] => []
  | (k', vs) :: rest =>
    if k' = k then filterKey k rest else (k', vs) :: filterKey k rest

/-- The map entry contributed by one parsed `key=value` pair. -/
def pairEntry (p : String × String) : String × List String :=
  (p.1, [p.2])

/-- Both components of a pair are separator-free. -/
def wfPair (p : String × String) : Bool :=
  wfText p.1 && wfText p.2

/-- Relation between two field-loop outcomes that differ only by a permutation
of the key map: same decoded fields, same current value, permuted maps with
duplicate-free keys. -/
def fieldsOutcomeRel :
    Except Err (FieldVals × AList × Option (List String)) →
    Except Err (FieldVals × AList × Option (List String)) → Prop
  | .error e₁, .error e₂ => e₁ = e₂
  | .ok (vs₁, m₁, cv₁), .ok (vs₂, m₂, cv₂) =>
    vs₁ = vs₂ ∧ cv₁ = cv₂ ∧ m₁.Perm m₂ ∧ (m₁.map Prod.fst).Nodup
  | _, _ => False

/-- Concatenation of field lists. -/
def appendF : FieldVals → FieldVals → FieldVals
  | .nil, b => b
  | .cons k v rest, b => .cons k v (appendF rest b)

mutual
/-- Values whose serialization is "tame": no sequences and no empty nested
records, the two constructs whose serialization can leave the buffer in a
state (a pending retraction flag, or a nonempty buffer with `is_first` set)
that makes a later retraction remove the wrong text. -/
def tameV : Value → Bool
  | .vStr _ => true
  | .vI32 _ => true
  | .vNone => true
  | .vSome w => tameV w
  | .vSeq _ => false
  | .vStruct fs =>
    match fs with
    | .nil => false
    | _ => tameF fs

/-- All field values in the list are tame. -/
def tameF : FieldVals → Bool
  | .nil => true
  | .cons _ v rest => tameV v && tameF rest
end

/-- Buffer/flag invariant of the serializer at field boundaries: the output
buffer is empty exactly when `is_first` is still set. -/
def outFlagInv (st : SState) : Prop :=
  st.output = [] ↔ st.is_first = true

/-- The serializer state right after `serialize_field` has performed the
pending struct retraction, recorded the key, and written `[&]key=` — the state
in which the field's value is serialized. -/
def fieldEntryState (k : String) (st : SState) : SState :=
  let st1 := if st.is_first_elem_of_struct then
      { st with output := popAmp st.output, is_first_elem_of_struct := false }
    else st
  let sep : List Char := if st1.is_first then [] else ['&']
  { st1 with
    curr_key := some k
    output := st1.output ++ sep ++ k.data ++ ['=']
    is_first := false }

/-- The record `{a:"b", b:None}`: the absent field's key appears in the
encoded text as another field's value. -/
def c5CexVal : Value :=
  .vStruct (.cons "a" (.vStr "b") (.cons "b" .vNone .nil))

/-- The element list of a repeated-key `i32` sequence. -/
def i32Elems : List Int → ValueList
  | [] => .nil
  | x :: xs => .cons (.vI32 x) (i32Elems xs)

/-- Text contributed by the elements of a repeated-key sequence once the
retraction has happened: `&key=x` for each element. -/
def seqTail (key : String) : List Int → List Char
  | [] => []
  | x :: xs => '&' :: (key.data ++ '=' :: ((intToText x).data ++ seqTail key xs))

/-- Horner evaluation of a digit string, as performed by the `parse` loop. -/
def digitsVal : Nat → List Char → Nat
  | acc, [] => acc
  | acc, c :: rest => digitsVal (acc * 10 + (c.toNat - 48)) rest

/-- Shapes that are bare scalars. -/
def scalarShape : Shape → Bool
  | .sStr => true
  | .sI32 => true
  | _ => false

mutual
/-- Shape/value pairs whose round trip succeeds from any non-initial field
position: separator-free string scalars, in-range `i32` scalars, optionals
over scalars, and nonempty nested records of such fields — no sequences. -/
def goodV : Shape → Value → Bool
  | .sStr, .vStr s => wfText s
  | .sI32, .vI32 n => decide (-2147483648 ≤ n) && decide (n ≤ 2147483647)
  | .sOpt sh, .vNone => scalarShape sh
  | .sOpt sh, .vSome w => scalarShape sh && goodV sh w
  | .sStruct fs, .vStruct gs =>
    (match gs with | .nil => false | .cons _ _ _ => true) && goodF fs gs
  | _, _ => false

/-- Every field value matches its declared shape and is good, and every field
name is separator-free. -/
def goodF : FieldShapes → FieldVals → Bool
  | .nil, .nil => true
  | .cons k sh rest, .cons k2 v rest2 =>
    decide (k = k2) && wfText k && goodV sh v && goodF rest rest2
  | _, _ => false
end

/-- Values allowed in the very first field of the top-level record: ones that
unconditionally write their `key=value` pair (scalars or present optionals),
establishing the nonempty-buffer state the remaining encoder steps rely on. -/
def leadV : Shape → Value → Bool
  | .sOpt sh, .vSome w => scalarShape sh && goodV sh w
  | .sOpt _, .vNone => false
  | sh, v => scalarShape sh && goodV sh v

mutual
/-- The `key=value` pairs a good field named `k` contributes to the wire text,
in writing order. -/
def pairsV (k : String) : Value → List (String × String)
  | .vStr s => [(k, s)]
  | .vI32 n => [(k, intToText n)]
  | .vNone => []
  | .vSome w => pairsV k w
  | .vSeq _ => []
  | .vStruct gs => pairsF gs

/-- The `key=value` pairs a good field list contributes, in writing order. -/
def pairsF : FieldVals → List (String × String)
  | .nil => []
  | .cons k v rest => pairsV k v ++ pairsF rest
end

mutual
/-- Field names that must be absent from the parsed key map for the field to
decode back to the given value: absent-optional names and nested-record names
(recursively). -/
def deadV (k : String) : Shape → Value → List String
  | .sOpt _, .vNone => [k]
  | .sStruct fs, .vStruct gs => k :: deadF fs gs
  | _, _ => []

/-- Dead names of a whole field list. -/
def deadF : FieldShapes → FieldVals → List String
  | .cons k sh rest, .cons _ v rest2 => deadV k sh v ++ deadF rest rest2
  | _, _ => []
end

/-- Names of the record's own (direct) fields. -/
def ownNames : FieldShapes → List String
  | .nil => []
  | .cons k _ rest => k :: ownNames rest

/-- Every name the field tree mentions: the wire keys in writing order,
followed by the dead names. Duplicate-freedom of this list is exactly the
name-uniqueness the round trip needs. -/
def treeNames (fs : FieldShapes) (gs : FieldVals) : List String :=
  (pairsF gs).map Prod.fst ++ deadF fs gs

/-- The amended round-trip class: a nonempty top-level record whose first
field writes a pair, whose fields are all good, and whose tree names are
mutually distinct. -/
def goodTop : Shape → Value → Bool
  | .sStruct (.cons k sh rest), .vStruct (.cons k2 v rest2) =>
    decide (k = k2) && wfText k && leadV sh v && goodF rest rest2 &&
      decide (treeNames (.cons k sh rest) (.cons k2 v rest2)).Nodup
  | _, _ => false

section Theorems

/-- Rebuilding a string from its characters gives the string back. -/
theorem stringMk_data (s : String) : (⟨s.data⟩ : String) = s := rfl

/-- `splitOnChar` always returns at least one piece. -/
theorem splitOnChar_ne_nil (sep : Char) (l : List Char) :
    splitOnChar sep l ≠ [] := by
  cases l with
  | nil => simp [splitOnChar]
  | cons c rest =>
    simp only [splitOnChar]
    rcases splitOnChar sep rest with _ | ⟨p, ps⟩
    · simp
    · by_cases h : c = sep <;> simp [h]

/-- Splitting a separator-free string yields the single whole piece. -/
theorem splitOnChar_no_sep {sep : Char} {a : List Char} (h : sep ∉ a) :
    splitOnChar sep a = [a] := by
  induction a with
  | nil => rfl
  | cons c rest ih =>
    simp only [List.mem_cons, not_or] at h
    have hne : ¬c = sep := fun hc => h.1 hc.symm
    simp [splitOnChar, ih h.2, hne]

/-- Splitting distributes over a separator occurrence after a separator-free
prefix. -/
theorem splitOnChar_append_sep {sep : Char} {a b : List Char} (h : sep ∉ a) :
    splitOnChar sep (a ++ sep :: b) = a :: splitOnChar sep b := by
  induction a with
  | nil =>
    simp only [List.nil_append, splitOnChar]
    rcases hsp : splitOnChar sep b with _ | ⟨p, ps⟩
    · exact absurd hsp (splitOnChar_ne_nil sep b)
    · simp
  | cons c rest ih =>
    simp only [List.mem_cons, not_or] at h
    have hne : ¬c = sep := fun hc => h.1 hc.symm
    simp only [List.cons_append, splitOnChar]
    rw [show splitOnChar sep (rest.append (sep :: b)) = rest :: splitOnChar sep b from
      ih h.2]
    simp [hne]

/-- A separator-free string contains no `'&'`. -/
theorem wfText_amp {s : String} (h : wfText s = true) : '&' ∉ s.data := by
  intro hmem
  have := List.all_eq_true.mp h '&' hmem
  simp at this

/-- A separator-free string contains no `'='`. -/
theorem wfText_eqc {s : String} (h : wfText s = true) : '=' ∉ s.data := by
  intro hmem
  have := List.all_eq_true.mp h '=' hmem
  simp at this

/-- A well-formed pair's wire text contains no `'&'`. -/
theorem amp_notMem_renderPair {p : String × String} (h : wfPair p = true) :
    '&' ∉ renderPair p := by
  obtain ⟨k, v⟩ := p
  simp only [wfPair, Bool.and_eq_true] at h
  intro hmem
  simp only [renderPair, List.mem_append, List.mem_cons] at hmem
  rcases hmem with h1 | h1 | h1
  · exact wfText_amp h.1 h1
  · simp at h1
  · exact wfText_amp h.2 h1

/-- Splitting one rendered pair on `'='` recovers the key and the value. -/
theorem splitEq_renderPair {k v : String}
    (hk : wfText k = true) (hv : wfText v = true) :
    splitOnChar '=' (renderPair (k, v)) = [k.data, v.data] := by
  show splitOnChar '=' (k.data ++ '=' :: v.data) = [k.data, v.data]
  rw [splitOnChar_append_sep (wfText_eqc hk), splitOnChar_no_sep (wfText_eqc hv)]

/-- Splitting a rendered nonempty pair list on `'&'` recovers the pair texts. -/
theorem splitAmp_renderPairs {ps : List (String × String)}
    (hwf : ∀ p ∈ ps, wfPair p = true) (hne : ps ≠ []) :
    splitOnChar '&' (renderPairs ps) = ps.map renderPair := by
  induction ps with
  | nil => exact absurd rfl hne
  | cons p rest ih =>
    cases rest with
    | nil =>
      show splitOnChar '&' (renderPair p ++ renderTail []) = [renderPair p]
      simp only [renderTail, List.append_nil]
      exact splitOnChar_no_sep (amp_notMem_renderPair (hwf p (by simp)))
    | cons q qs =>
      show splitOnChar '&' (renderPair p ++ '&' :: (renderPair q ++ renderTail qs)) = _
      rw [splitOnChar_append_sep (amp_notMem_renderPair (hwf p (by simp)))]
      have hwf' : ∀ x ∈ q :: qs, wfPair x = true := fun x hx => hwf x (by simp [hx])
      have := ih hwf' (by simp)
      simp only [renderPairs] at this
      simp [this]

/-- Inserting a fresh key appends its entry at the end of the map. -/
theorem insertVal_append {k v : String} {acc : AList}
    (h : k ∉ acc.map Prod.fst) : insertVal k v acc = acc ++ [(k, [v])] := by
  induction acc with
  | nil => rfl
  | cons x rest ih =>
    obtain ⟨k', vs⟩ := x
    simp only [List.map_cons, List.mem_cons, not_or] at h
    have hne : ¬k' = k := fun hc => h.1 hc.symm
    simp [insertVal, hne, ih h.2]

/-- Folding the rendered pieces of a duplicate-free pair list builds exactly
the corresponding singleton-valued entries, in order. -/
theorem parsePiecesAux_render (ps : List (String × String)) (acc : AList)
    (hwf : ∀ p ∈ ps, wfPair p = true)
    (hnd : (acc.map Prod.fst ++ ps.map Prod.fst).Nodup) :
    parsePiecesAux (ps.map renderPair) acc = .ok (acc ++ ps.map pairEntry) := by
  induction ps generalizing acc with
  | nil => simp [parsePiecesAux]
  | cons p rest ih =>
    obtain ⟨k, v⟩ := p
    have hwfp : wfPair (k, v) = true := hwf (k, v) (by simp)
    have hkv : wfText k = true ∧ wfText v = true := by
      simpa [wfPair] using hwfp
    have hk : wfText k = true := hkv.1
    have hv : wfText v = true := hkv.2
    have hknot : k ∉ acc.map Prod.fst := by
      simp only [List.map_cons, List.nodup_append, List.nodup_cons,
        List.disjoint_cons_right] at hnd
      exact fun hmem => hnd.2.2.1 hmem
    have hsplit := splitEq_renderPair hk hv
    simp only [List.map_cons, parsePiecesAux, hsplit]
    rw [show (⟨k.data⟩ : String) = k from rfl, show (⟨v.data⟩ : String) = v from rfl,
      insertVal_append hknot]
    have hnd' : ((acc ++ [(k, [v])]).map Prod.fst ++ rest.map Prod.fst).Nodup := by
      simpa [List.append_assoc] using hnd
    rw [ih (acc ++ [(k, [v])]) (fun x hx => hwf x (by simp [hx])) hnd']
    simp [pairEntry, List.append_assoc]

/-- `Deserializer::try_from_str` on the rendered text of a duplicate-free pair
list produces the singleton-valued map of those pairs in order. -/
theorem parsePairs_render {ps : List (String × String)}
    (hwf : ∀ p ∈ ps, wfPair p = true) (hnd : (ps.map Prod.fst).Nodup)
    (hne : ps ≠ []) :
    parsePairs ⟨renderPairs ps⟩ = .ok (ps.map pairEntry) := by
  show parsePiecesAux (splitOnChar '&' (renderPairs ps)) [] = _
  rw [splitAmp_renderPairs hwf hne,
    parsePiecesAux_render ps [] hwf (by simpa using hnd)]
  simp

/-- Looking a key up is invariant under permuting a duplicate-free map. -/
theorem lookupKey_perm {m₁ m₂ : AList} (h : m₁.Perm m₂)
    (hn : (m₁.map Prod.fst).Nodup) (k : String) :
    lookupKey k m₁ = lookupKey k m₂ := by
  induction h with
  | nil => rfl
  | cons x h ih =>
    obtain ⟨k', vs⟩ := x
    simp only [List.map_cons, List.nodup_cons] at hn
    by_cases hk : k' = k
    · simp [lookupKey, hk]
    · simp [lookupKey, hk, ih hn.2]
  | swap x y l =>
    obtain ⟨k₁, v₁⟩ := x
    obtain ⟨k₂, v₂⟩ := y
    simp only [List.map_cons, List.nodup_cons, List.mem_cons, not_or] at hn
    have hne : ¬k₂ = k₁ := hn.1.1
    by_cases h1 : k₁ = k <;> by_cases h2 : k₂ = k
    · exact absurd (h2.trans h1.symm) hne
    · simp [lookupKey, h1, h2]
    · simp [lookupKey, h1, h2]
    · simp [lookupKey, h1, h2]
  | trans h₁ h₂ ih₁ ih₂ =>
    exact (ih₁ hn).trans (ih₂ ((h₁.map Prod.fst).nodup_iff.mp hn))

/-- A key is removable exactly when it is present. -/
theorem removeKey_eq_none {k : String} {m : AList} :
    removeKey k m = none ↔ lookupKey k m = none := by
  induction m with
  | nil => simp [removeKey, lookupKey]
  | cons x rest ih =>
    obtain ⟨k', vs⟩ := x
    by_cases hk : k' = k
    · simp [removeKey, lookupKey, hk]
    · simp only [removeKey, lookupKey, hk, if_false]
      cases h : removeKey k rest with
      | none => simpa [h] using ih
      | some p => simpa [h] using ih

/-- A key absent from the key list is never looked up successfully. -/
theorem lookupKey_eq_none_of_notMem {k : String} {m : AList}
    (h : k ∉ m.map Prod.fst) : lookupKey k m = none := by
  induction m with
  | nil => rfl
  | cons x rest ih =>
    obtain ⟨k', vs⟩ := x
    simp only [List.map_cons, List.mem_cons, not_or] at h
    have hne : ¬k' = k := fun hc => h.1 hc.symm
    simp [lookupKey, hne, ih h.2]

/-- Filtering out an absent key leaves the map unchanged. -/
theorem filterKey_eq_self {k : String} {m : AList}
    (h : k ∉ m.map Prod.fst) : filterKey k m = m := by
  induction m with
  | nil => rfl
  | cons x rest ih =>
    obtain ⟨k', vs⟩ := x
    simp only [List.map_cons, List.mem_cons, not_or] at h
    have hne : ¬k' = k := fun hc => h.1 hc.symm
    simp [filterKey, hne, ih h.2]

/-- On a duplicate-free map, removing a key returns its looked-up values, and
the remainder is the key-filtered map. -/
theorem removeKey_eq_some {k : String} {m : AList} {v : List String} {r : AList}
    (hn : (m.map Prod.fst).Nodup) (h : removeKey k m = some (v, r)) :
    lookupKey k m = some v ∧ r = filterKey k m := by
  induction m generalizing v r with
  | nil => simp [removeKey] at h
  | cons x rest ih =>
    obtain ⟨k', vs⟩ := x
    simp only [List.map_cons, List.nodup_cons] at hn
    by_cases hk : k' = k
    · simp only [removeKey, hk, if_true, Option.some.injEq, Prod.mk.injEq] at h
      subst hk
      refine ⟨by simp [lookupKey, h.1], ?_⟩
      rw [← h.2, filterKey, if_pos rfl, filterKey_eq_self hn.1]
    · simp only [removeKey, hk, if_false] at h
      cases hrm : removeKey k rest with
      | none => simp [hrm] at h
      | some p =>
        obtain ⟨v₀, r₀⟩ := p
        rw [hrm] at h
        simp only [Option.some.injEq, Prod.mk.injEq] at h
        obtain ⟨hv, hr⟩ := h
        subst hv
        obtain ⟨hl, hf⟩ := ih hn.2 hrm
        exact ⟨by simp [lookupKey, hk, hl], by simp [← hr, filterKey, hk, hf]⟩

/-- Filtering a key commutes with permutation. -/
theorem filterKey_perm {m₁ m₂ : AList} (h : m₁.Perm m₂) (k : String) :
    (filterKey k m₁).Perm (filterKey k m₂) := by
  induction h with
  | nil => rfl
  | cons x h ih =>
    obtain ⟨k', vs⟩ := x
    by_cases hk : k' = k
    · simpa [filterKey, hk] using ih
    · simpa [filterKey, hk] using ih.cons (k', vs)
  | swap x y l =>
    obtain ⟨k₁, v₁⟩ := x
    obtain ⟨k₂, v₂⟩ := y
    by_cases h1 : k₁ = k <;> by_cases h2 : k₂ = k
    · simp only [filterKey, h1, h2, if_true]
      exact List.Perm.refl _
    · simp only [filterKey, h1, h2, if_true, if_false]
      exact List.Perm.refl _
    · simp only [filterKey, h1, h2, if_true, if_false]
      exact List.Perm.refl _
    · simp only [filterKey, h1, h2, if_false]
      exact List.Perm.swap _ _ _
  | trans _ _ ih₁ ih₂ => exact ih₁.trans ih₂

/-- Keys surviving a filter were keys of the original map. -/
theorem mem_keys_filterKey {k k' : String} {m : AList}
    (h : k' ∈ (filterKey k m).map Prod.fst) : k' ∈ m.map Prod.fst := by
  induction m with
  | nil => simp [filterKey] at h
  | cons x rest ih =>
    obtain ⟨k₀, vs⟩ := x
    by_cases hk : k₀ = k
    · simp only [filterKey, hk, if_true] at h
      simp [ih h]
    · simp only [filterKey, hk, if_false, List.map_cons, List.mem_cons] at h
      rcases h with h | h
      · simp [h]
      · simp [ih h]

/-- Filtering a key preserves duplicate-freeness of the key list. -/
theorem filterKey_keys_nodup {k : String} {m : AList}
    (hn : (m.map Prod.fst).Nodup) : ((filterKey k m).map Prod.fst).Nodup := by
  induction m with
  | nil => simp [filterKey]
  | cons x rest ih =>
    obtain ⟨k₀, vs⟩ := x
    simp only [List.map_cons, List.nodup_cons] at hn
    by_cases hk : k₀ = k
    · simp only [filterKey, hk, if_true]
      exact ih hn.2
    · simp only [filterKey, hk, if_false, List.map_cons, List.nodup_cons]
      exact ⟨fun hmem => hn.1 (mem_keys_filterKey hmem), ih hn.2⟩

/-- The derived field loop gives the same decoded fields on two permuted
duplicate-free key maps, with the residual maps still permuted. -/
theorem decodeFieldsF_perm
    (dec : Shape → AList → Option (List String) →
      Except Err (Value × Option (List String)))
    (hdec : ∀ sh m₁ m₂ cv, m₁.Perm m₂ → (m₁.map Prod.fst).Nodup →
      dec sh m₁ cv = dec sh m₂ cv)
    (fs : FieldShapes) (m₁ m₂ : AList) (cv : Option (List String))
    (h : m₁.Perm m₂) (hn : (m₁.map Prod.fst).Nodup) :
    fieldsOutcomeRel (decodeFieldsF dec fs m₁ cv) (decodeFieldsF dec fs m₂ cv) := by
  cases fs with
  | nil =>
    exact ⟨rfl, rfl, h, hn⟩
  | cons k sh rest =>
    have hrest := decodeFieldsF_perm dec hdec rest m₁ m₂ cv h hn
    cases hr₁ : decodeFieldsF dec rest m₁ cv with
    | error e₁ =>
      cases hr₂ : decodeFieldsF dec rest m₂ cv with
      | error e₂ =>
        rw [hr₁, hr₂] at hrest
        simp only [decodeFieldsF, hr₁, hr₂]
        exact hrest
      | ok t₂ =>
        rw [hr₁, hr₂] at hrest
        exact absurd hrest (by rcases t₂ with ⟨vs₂, m₂', cv₂⟩; simp [fieldsOutcomeRel])
    | ok t₁ =>
      obtain ⟨vs₁, m₁', cv₁⟩ := t₁
      cases hr₂ : decodeFieldsF dec rest m₂ cv with
      | error e₂ =>
        rw [hr₁, hr₂] at hrest
        exact absurd hrest (by simp [fieldsOutcomeRel])
      | ok t₂ =>
        obtain ⟨vs₂, m₂', cv₂⟩ := t₂
        rw [hr₁, hr₂] at hrest
        obtain ⟨hvs, hcv, hperm', hnd'⟩ := hrest
        subst hvs
        subst hcv
        have hnd₂ : (m₂'.map Prod.fst).Nodup :=
          (hperm'.map Prod.fst).nodup_iff.mp hnd'
        cases hrm : removeKey k m₁' with
        | none =>
          have hrm₂ : removeKey k m₂' = none := by
            rw [removeKey_eq_none] at hrm ⊢
            rw [← lookupKey_perm hperm' hnd' k]
            exact hrm
          have hd := hdec sh m₁' m₂' cv₁ hperm' hnd'
          simp only [decodeFieldsF, hr₁, hr₂, hrm, hrm₂]
          rw [← hd]
          cases hv : dec sh m₁' cv₁ with
          | error e => simp [hv, fieldsOutcomeRel]
          | ok p =>
            obtain ⟨v, cv₃⟩ := p
            simp only [hv]
            exact ⟨rfl, rfl, hperm', hnd'⟩
        | some p =>
          obtain ⟨v, r₁⟩ := p
          obtain ⟨hl₁, hfil₁⟩ := removeKey_eq_some hnd' hrm
          have hl₂ : lookupKey k m₂' = some v := by
            rw [← lookupKey_perm hperm' hnd' k]
            exact hl₁
          cases hrm₂ : removeKey k m₂' with
          | none =>
            rw [removeKey_eq_none] at hrm₂
            rw [hrm₂] at hl₂
            exact absurd hl₂ (by simp)
          | some p₂ =>
            obtain ⟨v₂, r₂⟩ := p₂
            obtain ⟨hl₂', hfil₂⟩ := removeKey_eq_some hnd₂ hrm₂
            have hv₂ : v₂ = v := by
              rw [hl₂'] at hl₂
              simpa using hl₂
            rw [hv₂] at hrm₂
            have hrperm : r₁.Perm r₂ := by
              rw [hfil₁, hfil₂]
              exact filterKey_perm hperm' k
            have hrnd : (r₁.map Prod.fst).Nodup := by
              rw [hfil₁]
              exact filterKey_keys_nodup hnd'
            have hd := hdec sh r₁ r₂ (some v) hrperm hrnd
            simp only [decodeFieldsF, hr₁, hr₂, hrm, hrm₂]
            rw [← hd]
            cases hv : dec sh r₁ (some v) with
            | error e => simp [hv, fieldsOutcomeRel]
            | ok p₃ =>
              obtain ⟨w, cv₃⟩ := p₃
              simp only [hv]
              exact ⟨rfl, rfl, hrperm, hrnd⟩

/-- Shape-directed decoding only accesses the key map through by-key lookups
and removals, so its result is invariant under permuting a duplicate-free
map. -/
theorem decodeShapeF_perm (fuel : Nat) :
    ∀ (sh : Shape) (m₁ m₂ : AList) (cv : Option (List String)), m₁.Perm m₂ →
      (m₁.map Prod.fst).Nodup →
      decodeShapeF fuel sh m₁ cv = decodeShapeF fuel sh m₂ cv := by
  induction fuel with
  | zero => intro sh m₁ m₂ cv _ _; rfl
  | succ fuel ih =>
    intro sh m₁ m₂ cv h hn
    cases sh with
    | sStr => rfl
    | sI32 => rfl
    | sOpt sh1 =>
      cases cv with
      | none => rfl
      | some vals =>
        cases vals with
        | nil => rfl
        | cons s rest =>
          simp only [decodeShapeF, ih sh1 m₁ m₂ (some (s :: rest)) h hn]
    | sSeq sh1 =>
      cases cv with
      | none => rfl
      | some vals =>
        have helems : decodeElemsF (decodeShapeF fuel sh1) m₁ vals =
            decodeElemsF (decodeShapeF fuel sh1) m₂ vals := by
          induction vals with
          | nil => rfl
          | cons v rest ihv =>
            simp only [decodeElemsF, ih sh1 m₁ m₂ (some [v]) h hn, ihv]
        simp only [decodeShapeF, helems]
    | sStruct fs =>
      have hrel := decodeFieldsF_perm (decodeShapeF fuel)
        (fun sh' a b cv' hp hnd => ih sh' a b cv' hp hnd) fs m₁ m₂ none h hn
      simp only [decodeShapeF]
      cases h₁ : decodeFieldsF (decodeShapeF fuel) fs m₁ none with
      | error e₁ =>
        cases h₂ : decodeFieldsF (decodeShapeF fuel) fs m₂ none with
        | error e₂ =>
          rw [h₁, h₂] at hrel
          simp only [fieldsOutcomeRel] at hrel
          simp [hrel]
        | ok t₂ =>
          rw [h₁, h₂] at hrel
          exact absurd hrel (by rcases t₂ with ⟨vs₂, m₂', cv₂⟩; simp [fieldsOutcomeRel])
      | ok t₁ =>
        obtain ⟨vs₁, m₁', cv₁⟩ := t₁
        cases h₂ : decodeFieldsF (decodeShapeF fuel) fs m₂ none with
        | error e₂ =>
          rw [h₁, h₂] at hrel
          exact absurd hrel (by simp [fieldsOutcomeRel])
        | ok t₂ =>
          obtain ⟨vs₂, m₂', cv₂⟩ := t₂
          rw [h₁, h₂] at hrel
          obtain ⟨hvs, _, _, _⟩ := hrel
          rw [hvs]

/-- C6: decoding `"age=37&name=test&limit=10&offset=0"` into a record with
top-level fields `age` and `name` and a nested record field
`pagination{limit, offset}` succeeds with `age=37`, `name="test"`,
`pagination.limit=10`, `pagination.offset=0`, and the result is the same for
every permutation of the four `key=value` pairs of the input text. -/
theorem decode_any_permutation (ps : List (String × String))
    (h : ps.Perm c6Pairs) :
    from_str c6Shape ⟨renderPairs ps⟩ = .ok c6Expected := by
  have hbase : ∀ p ∈ c6Pairs, wfPair p = true := by decide
  have hwf : ∀ p ∈ ps, wfPair p = true := fun p hp => hbase p (h.subset hp)
  have hne : ps ≠ [] := by
    intro he
    have := h.length_eq
    rw [he] at this
    simp [c6Pairs] at this
  have hk : (ps.map Prod.fst).Nodup :=
    ((h.map Prod.fst).nodup_iff).mpr (by decide)
  have h1 : parsePairs ⟨renderPairs ps⟩ = .ok (ps.map pairEntry) :=
    parsePairs_render hwf hk hne
  have hperm : (ps.map pairEntry).Perm (c6Pairs.map pairEntry) := h.map pairEntry
  have hmapfst : (ps.map pairEntry).map Prod.fst = ps.map Prod.fst := by
    rw [List.map_map]
    rfl
  have hnd : ((ps.map pairEntry).map Prod.fst).Nodup := by
    rw [hmapfst]
    exact hk
  have h2 : decode c6Shape (ps.map pairEntry) none =
      decode c6Shape (c6Pairs.map pairEntry) none :=
    decodeShapeF_perm (shapeDepth c6Shape) c6Shape _ _ none hperm hnd
  have h3 : decode c6Shape (c6Pairs.map pairEntry) none = .ok (c6Expected, none) := by
    decide
  simp only [from_str, h1, h2, h3]

/-- C6 witness: the reversed order of the four pairs decodes to the same
record. -/
theorem decode_any_permutation_witness :
    ([("offset", "0"), ("limit", "10"), ("name", "test"), ("age", "37")] :
        List (String × String)).Perm c6Pairs ∧
      from_str c6Shape
        ⟨renderPairs [("offset", "0"), ("limit", "10"), ("name", "test"), ("age", "37")]⟩ =
        .ok c6Expected :=
  ⟨by decide, decode_any_permutation _ (by decide)⟩

/-- Scanning an `'&'`-free buffer pops everything. -/
theorem popAmpAux_no_amp {a : List Char} (h : '&' ∉ a) : popAmpAux a = [] := by
  induction a with
  | nil => rfl
  | cons c rest ih =>
    simp only [List.mem_cons, not_or] at h
    have hne : ¬c = '&' := fun hc => h.1 hc.symm
    simp [popAmpAux, hne, ih h.2]

/-- Scanning stops at the first `'&'`, returning what lies beyond it. -/
theorem popAmpAux_append {a b : List Char} (h : '&' ∉ a) :
    popAmpAux (a ++ '&' :: b) = b := by
  induction a with
  | nil => simp [popAmpAux]
  | cons c rest ih =>
    simp only [List.mem_cons, not_or] at h
    have hne : ¬c = '&' := fun hc => h.1 hc.symm
    simp [popAmpAux, hne, ih h.2]

/-- The retraction of a freshly written `&`-free suffix restores the buffer. -/
theorem popAmp_append_amp {out tail : List Char} (h : '&' ∉ tail) :
    popAmp (out ++ '&' :: tail) = out := by
  unfold popAmp
  rw [List.reverse_append, List.reverse_cons, List.append_assoc,
    List.singleton_append]
  rw [popAmpAux_append (by simpa using h)]
  exact List.reverse_reverse out

/-- Retracting an `'&'`-free buffer empties it. -/
theorem popAmp_no_amp {l : List Char} (h : '&' ∉ l) : popAmp l = [] := by
  unfold popAmp
  rw [popAmpAux_no_amp (by simpa using h)]
  rfl

/-- The struct field loop splits over concatenation of field lists. -/
theorem serFields_append (a b : FieldVals) (st : SState) :
    serFields (appendF a b) st =
      match serFields a st with
      | .error e => .error e
      | .ok st' => serFields b st' := by
  cases a with
  | nil => simp [appendF, serFields]
  | cons k v rest =>
    show serFields (.cons k v (appendF rest b)) st = _
    simp only [serFields]
    cases serValue v _ with
    | error e => rfl
    | ok st5 => exact serFields_append rest b st5

/-- A nonempty field loop ignores the incoming current key: the first field
overwrites it before it is ever read. -/
theorem serFields_currKey (k : String) (v : Value) (rest : FieldVals)
    (st : SState) (x : Option String) :
    serFields (.cons k v rest) { st with curr_key := x } =
      serFields (.cons k v rest) st := by
  obtain ⟨f, out, ck, q, z⟩ := st
  cases z <;> rfl

/-- Entering a nonempty field loop with the struct-retraction flag set is the
same as entering with the retraction already applied. -/
theorem serFields_cons_flag (k : String) (v : Value) (rest : FieldVals)
    (st : SState) :
    serFields (.cons k v rest) { st with is_first_elem_of_struct := true } =
      serFields (.cons k v rest)
        { st with output := popAmp st.output, is_first_elem_of_struct := false } := by
  obtain ⟨f, out, ck, q, z⟩ := st
  rfl

/-- One step of the struct field loop, phrased through `fieldEntryState`. -/
theorem serFields_cons_eq (k : String) (v : Value) (rest : FieldVals)
    (st : SState) :
    serFields (.cons k v rest) st =
      match serValue v (fieldEntryState k st) with
      | .error e => .error e
      | .ok st5 => serFields rest st5 := rfl

/-- The field-entry buffer always ends in `'='`, hence is nonempty. -/
theorem fieldEntryState_output_ne (k : String) (st : SState) :
    (fieldEntryState k st).output ≠ [] := by
  cases hz : st.is_first_elem_of_struct <;> simp [fieldEntryState, hz]

/-- Field entry clears `is_first`. -/
theorem fieldEntryState_is_first (k : String) (st : SState) :
    (fieldEntryState k st).is_first = false := rfl

/-- Field entry leaves the struct-retraction flag cleared. -/
theorem fieldEntryState_flag (k : String) (st : SState) :
    (fieldEntryState k st).is_first_elem_of_struct = false := by
  cases hz : st.is_first_elem_of_struct <;> simp [fieldEntryState, hz]

mutual
/-- Serializing a tame value from a field-value position (nonempty buffer,
`is_first` and the struct flag cleared) always succeeds and restores the
boundary invariant with the struct flag cleared. -/
theorem serValue_tame (v : Value) (st : SState) (hv : tameV v = true)
    (hout : st.output ≠ []) (hf : st.is_first = false)
    (hz : st.is_first_elem_of_struct = false) :
    ∃ st', serValue v st = .ok st' ∧ outFlagInv st' ∧
      st'.is_first_elem_of_struct = false := by
  cases v with
  | vStr s =>
    refine ⟨_, rfl, ?_, hz⟩
    simp [outFlagInv, hf, hout]
  | vI32 n =>
    refine ⟨_, rfl, ?_, hz⟩
    simp [outFlagInv, hf, hout]
  | vNone =>
    refine ⟨_, rfl, ?_, hz⟩
    rcases hpop : popAmp st.output with _ | ⟨c, cs⟩
    · simp [outFlagInv, hpop]
    · simp [outFlagInv, hpop, hf]
  | vSome w => exact serValue_tame w st (by simpa [tameV] using hv) hout hf hz
  | vSeq vs => simp [tameV] at hv
  | vStruct fs =>
    cases fs with
    | nil => simp [tameV] at hv
    | cons k w rest =>
      have htf : tameF (.cons k w rest) = true := by simpa [tameV] using hv
      obtain ⟨st', h1, h2, h3⟩ :=
        serFields_tame (.cons k w rest)
          { st with is_first_elem_of_struct := true } htf (by simp)
      exact ⟨st', h1, h2, h3⟩

/-- The field loop on a nonempty tame field list always succeeds, restores the
boundary invariant, and leaves the struct flag cleared. -/
theorem serFields_tame (fs : FieldVals) (st : SState) (hv : tameF fs = true)
    (hne : fs ≠ .nil) :
    ∃ st', serFields fs st = .ok st' ∧ outFlagInv st' ∧
      st'.is_first_elem_of_struct = false := by
  cases fs with
  | nil => exact absurd rfl hne
  | cons k v rest =>
    have hkv : tameV v = true ∧ tameF rest = true := by simpa [tameF] using hv
    rw [serFields_cons_eq]
    obtain ⟨st5, h5, hinv5, hz5⟩ := serValue_tame v (fieldEntryState k st) hkv.1
      (fieldEntryState_output_ne k st) (fieldEntryState_is_first k st)
      (fieldEntryState_flag k st)
    rw [h5]
    cases rest with
    | nil => exact ⟨st5, rfl, hinv5, hz5⟩
    | cons k2 v2 rest2 =>
      exact serFields_tame (.cons k2 v2 rest2) st5 hkv.2 (by simp)
end

/-- Serializing an absent optional field retracts exactly the `[&]key=` just
written: the state returns to what it was, except that the key has been
recorded. Requires the boundary invariant and a cleared struct flag. -/
theorem serFields_none_step (k : String) (post : FieldVals) (st : SState)
    (hk : '&' ∉ k.data) (hinv : outFlagInv st)
    (hz : st.is_first_elem_of_struct = false) :
    serFields (.cons k .vNone post) st =
      serFields post { st with curr_key := some k } := by
  have hnk : '&' ∉ k.data ++ ['='] := by
    intro hmem
    rcases List.mem_append.mp hmem with h | h
    · exact hk h
    · simp at h
  obtain ⟨f, out, ck, q, z⟩ := st
  simp only at hz
  subst hz
  simp only [outFlagInv] at hinv
  rw [serFields_cons_eq]
  cases f with
  | true =>
    have hout : out = [] := hinv.mpr rfl
    subst hout
    have h1 : serValue .vNone (fieldEntryState k ⟨true, [], ck, q, false⟩) =
        .ok ⟨true, [], some k, q, false⟩ := by
      simp [fieldEntryState, serValue, popAmp_no_amp hnk]
    rw [h1]
  | false =>
    rcases hout : out with _ | ⟨c, cs⟩
    · rw [hout] at hinv
      simp at hinv
    · have hpop : popAmp (c :: (cs ++ '&' :: (k.data ++ ['=']))) = c :: cs := by
        have h0 := @popAmp_append_amp (c :: cs) _ hnk
        simpa using h0
      have h1 : serValue .vNone (fieldEntryState k ⟨false, c :: cs, ck, q, false⟩) =
          .ok ⟨false, c :: cs, some k, q, false⟩ := by
        simp [fieldEntryState, serValue, hpop]
      rw [h1]

/-- C5 counterexample: in `{a:"b", b:None}` the absent optional field `b`
serializes away, but the encoded text `"a=b"` still contains an occurrence of
the field's key `"b"` (as the value of field `a`), so "the encoded text
contains no occurrence of that field's key" is false as stated. -/
theorem optional_key_occurrence_cex :
    to_string c5CexVal = .ok "a=b" ∧
      ∃ s t : List Char, s ++ "b".data ++ t = "a=b".data :=
  ⟨by decide, ⟨['a', '='], [], by decide⟩⟩

/-- C5 amended: a present optional field `Some(x)` encodes identically to the
record with `x` unwrapped, unconditionally; an absent optional field is
retracted entirely — the encoded text equals that of the record with the field
removed — provided the fields before it are free of sequences and empty nested
records (whose pending retraction state the encoder corrupts) and the key
contains no `'&'`. In particular the absent field's key never appears as a
parsed key of the output. -/
theorem optional_field_encoding (pre post : FieldVals) (k : String) (w : Value)
    (hpre : tameF pre = true) (hk : '&' ∉ k.data) :
    to_string (.vStruct (appendF pre (.cons k (.vSome w) post))) =
      to_string (.vStruct (appendF pre (.cons k w post))) ∧
    to_string (.vStruct (appendF pre (.cons k .vNone post))) =
      to_string (.vStruct (appendF pre post)) := by
  constructor
  · have h : serValue (.vStruct (appendF pre (.cons k (.vSome w) post))) serInit =
        serValue (.vStruct (appendF pre (.cons k w post))) serInit := by
      show serFields (appendF pre (.cons k (.vSome w) post)) _ =
        serFields (appendF pre (.cons k w post)) _
      rw [serFields_append, serFields_append]
      cases serFields pre _ with
      | error e => rfl
      | ok stp => rfl
    unfold to_string
    rw [h]
  · cases pre with
    | nil =>
      have hA : serValue (.vStruct (.cons k .vNone post)) serInit =
          serFields post ⟨true, [], some k, false, false⟩ := by
        show serFields (.cons k .vNone post) ⟨true, [], none, false, true⟩ = _
        rw [show (⟨true, [], none, false, true⟩ : SState) =
          { (⟨true, [], none, false, false⟩ : SState) with
            is_first_elem_of_struct := true } from rfl]
        rw [serFields_cons_flag]
        rw [show ({ (⟨true, [], none, false, false⟩ : SState) with
          output := popAmp [], is_first_elem_of_struct := false } : SState) =
          ⟨true, [], none, false, false⟩ from rfl]
        rw [serFields_none_step k post ⟨true, [], none, false, false⟩ hk
          (by simp [outFlagInv]) rfl]
      have hB : serValue (.vStruct post) serInit =
          serFields post ⟨true, [], none, false, true⟩ := rfl
      unfold to_string
      simp only [appendF]
      rw [hA, hB]
      cases post with
      | nil => rfl
      | cons k2 v2 r2 =>
        rw [show (⟨true, [], none, false, true⟩ : SState) =
          { (⟨true, [], none, false, false⟩ : SState) with
            is_first_elem_of_struct := true } from rfl, serFields_cons_flag]
        rw [show ({ (⟨true, [], none, false, false⟩ : SState) with
          output := popAmp [], is_first_elem_of_struct := false } : SState) =
          ⟨true, [], none, false, false⟩ from rfl]
        rw [show (⟨true, [], some k, false, false⟩ : SState) =
          { (⟨true, [], none, false, false⟩ : SState) with
            curr_key := some k } from rfl, serFields_currKey]
    | cons p pv ps =>
      obtain ⟨stp, hstp, hinv, hflag⟩ :=
        serFields_tame (.cons p pv ps) ⟨true, [], none, false, true⟩ hpre (by simp)
      have e1 : serValue (.vStruct (appendF (.cons p pv ps) (.cons k .vNone post)))
          serInit = serFields (.cons k .vNone post) stp := by
        show serFields (appendF (.cons p pv ps) (.cons k .vNone post))
          ⟨true, [], none, false, true⟩ = _
        rw [serFields_append, hstp]
      have e2 : serValue (.vStruct (appendF (.cons p pv ps) post)) serInit =
          serFields post stp := by
        show serFields (appendF (.cons p pv ps) post)
          ⟨true, [], none, false, true⟩ = _
        rw [serFields_append, hstp]
      rw [serFields_none_step k post stp hk hinv hflag] at e1
      unfold to_string
      rw [e1, e2]
      cases post with
      | nil => rfl
      | cons k2 v2 r2 => rw [serFields_currKey]

/-- C5 witness: for `{a:"x", op:…, b:1}`, a present `op` encodes like its
unwrapped value, and an absent `op` encodes like the record without `op`. -/
theorem optional_field_encoding_witness :
    tameF (.cons "a" (.vStr "x") .nil) = true ∧ '&' ∉ "op".data ∧
      (to_string (.vStruct (appendF (.cons "a" (.vStr "x") .nil)
          (.cons "op" (.vSome (.vStr "s")) (.cons "b" (.vI32 1) .nil)))) =
        to_string (.vStruct (appendF (.cons "a" (.vStr "x") .nil)
          (.cons "op" (.vStr "s") (.cons "b" (.vI32 1) .nil)))) ∧
      to_string (.vStruct (appendF (.cons "a" (.vStr "x") .nil)
          (.cons "op" .vNone (.cons "b" (.vI32 1) .nil)))) =
        to_string (.vStruct (appendF (.cons "a" (.vStr "x") .nil)
          (.cons "b" (.vI32 1) .nil)))) :=
  ⟨by decide, by decide,
    optional_field_encoding (.cons "a" (.vStr "x") .nil) (.cons "b" (.vI32 1) .nil)
      "op" (.vStr "s") (by decide) (by decide)⟩

/-- Digit characters are digits, avoid the separators and signs, and carry
their value at offset 48. -/
theorem digitChar_props (d : Nat) (h : d < 10) :
    (Nat.digitChar d).isDigit = true ∧ Nat.digitChar d ≠ '&' ∧
      Nat.digitChar d ≠ '=' ∧ Nat.digitChar d ≠ '-' ∧ Nat.digitChar d ≠ '+' ∧
      (Nat.digitChar d).toNat - 48 = d := by
  interval_cases d <;> refine ⟨by decide, by decide, by decide, by decide, by decide, by decide⟩

/-- Every character produced by `natDigitsAux` is a digit character. -/
theorem natDigitsAux_chars (fuel n : Nat) :
    ∀ c ∈ natDigitsAux fuel n, ∃ d, d < 10 ∧ c = Nat.digitChar d := by
  induction fuel generalizing n with
  | zero => intro c hc; simp [natDigitsAux] at hc
  | succ fuel ih =>
    intro c hc
    by_cases h : n < 10
    · simp [natDigitsAux, h] at hc
      exact ⟨n, h, hc⟩
    · simp only [natDigitsAux, h, if_false, List.mem_append, List.mem_singleton] at hc
      rcases hc with hc | hc
      · exact ih (n / 10) c hc
      · exact ⟨n % 10, Nat.mod_lt _ (by norm_num), hc⟩

/-- `intToText` produces separator-free text. -/
theorem wfText_intToText (n : Int) : wfText (intToText n) = true := by
  have hdig : ∀ c : Char, (∃ d, d < 10 ∧ c = Nat.digitChar d) →
      (decide ¬c = '&' && decide ¬c = '=') = true := by
    rintro c ⟨d, hd, rfl⟩
    have h := digitChar_props d hd
    simp [h.2.1, h.2.2.1]
  rw [wfText, List.all_eq_true]
  intro c hc
  unfold intToText at hc
  by_cases h : n < 0
  · rw [if_pos h] at hc
    rcases List.mem_cons.mp hc with h1 | h1
    · subst h1; decide
    · exact hdig c (natDigitsAux_chars _ _ c h1)
  · rw [if_neg h] at hc
    exact hdig c (natDigitsAux_chars _ _ c hc)

/-- Horner evaluation distributes over appending digit strings. -/
theorem digitsVal_append (a b : List Char) :
    ∀ acc, digitsVal acc (a ++ b) = digitsVal (digitsVal acc a) b := by
  induction a with
  | nil => intro acc; rfl
  | cons c rest ih => intro acc; exact ih _

/-- Horner evaluation never decreases below the accumulator. -/
theorem digitsVal_ge (ds : List Char) : ∀ acc : Nat, acc ≤ digitsVal acc ds := by
  induction ds with
  | nil => intro acc; exact Nat.le_refl _
  | cons c rest ih =>
    intro acc
    have h1 : acc ≤ acc * 10 + (c.toNat - 48) := by omega
    exact h1.trans (ih _)

/-- The `parse` digit loop succeeds and returns the Horner value whenever that
value stays within the requested bound. -/
theorem parseI32digits_ok (neg : Bool) (ds : List Char) :
    ∀ acc, (∀ c ∈ ds, c.isDigit = true) →
      digitsVal acc ds ≤ (if neg then 2147483648 else 2147483647) →
      parseI32digits neg ds acc = .ok (digitsVal acc ds) := by
  induction ds with
  | nil => intro acc _ _; rfl
  | cons c rest ih =>
    intro acc hd hb
    have hc : c.isDigit = true := hd c (by simp)
    have hstep : digitsVal acc (c :: rest) =
        digitsVal (acc * 10 + (c.toNat - 48)) rest := rfl
    have hacc : acc * 10 + (c.toNat - 48) ≤ digitsVal acc (c :: rest) := by
      rw [hstep]
      exact digitsVal_ge rest _
    have hrest : digitsVal (acc * 10 + (c.toNat - 48)) rest ≤
        (if neg then 2147483648 else 2147483647) := by
      rw [← hstep]
      exact hb
    cases neg with
    | true =>
      have hle : ¬acc * 10 + (c.toNat - 48) > 2147483648 := by
        simp only [if_true] at hb
        omega
      simp only [parseI32digits, hc, if_true, hle, if_false]
      rw [hstep]
      exact ih _ (fun x hx => hd x (by simp [hx])) hrest
    | false =>
      have hle : ¬acc * 10 + (c.toNat - 48) > 2147483647 := by
        simp only [Bool.false_eq_true, if_false] at hb
        omega
      simp only [parseI32digits, hc, if_true, Bool.false_eq_true, hle, if_false]
      rw [hstep]
      exact ih _ (fun x hx => hd x (by simp [hx])) hrest

/-- With enough fuel, `natDigitsAux` is a faithful base-10 rendering: Horner
evaluation recovers the number. -/
theorem natDigitsAux_len_val :
    ∀ (fuel n : Nat), n < 10 ^ fuel →
      ∀ acc, digitsVal acc (natDigitsAux fuel n) =
        acc * 10 ^ (natDigitsAux fuel n).length + n := by
  intro fuel
  induction fuel with
  | zero =>
    intro n h acc
    rw [pow_zero] at h
    have hn : n = 0 := Nat.lt_one_iff.mp h
    subst hn
    show acc = acc * 10 ^ (0 : Nat) + 0
    rw [pow_zero]
    omega
  | succ fuel ih =>
    intro n h acc
    by_cases h10 : n < 10
    · have hv := (digitChar_props n h10).2.2.2.2.2
      simp only [natDigitsAux, h10, if_true]
      show digitsVal (acc * 10 + ((Nat.digitChar n).toNat - 48)) [] =
        acc * 10 ^ ([Nat.digitChar n] : List Char).length + n
      rw [hv]
      show acc * 10 + n = acc * 10 ^ (1 : Nat) + n
      rw [pow_one]
    · have hdiv : n / 10 < 10 ^ fuel := by
        rw [Nat.div_lt_iff_lt_mul (by norm_num)]
        calc n < 10 ^ (fuel + 1) := h
        _ = 10 ^ fuel * 10 := by rw [pow_succ]
      have hmod := (digitChar_props (n % 10) (Nat.mod_lt _ (by norm_num))).2.2.2.2.2
      simp only [natDigitsAux, h10, if_false]
      rw [digitsVal_append, ih (n / 10) hdiv acc]
      show digitsVal ((acc * 10 ^ (natDigitsAux fuel (n / 10)).length + n / 10) * 10 +
        ((Nat.digitChar (n % 10)).toNat - 48)) [] = _
      rw [hmod]
      show (acc * 10 ^ (natDigitsAux fuel (n / 10)).length + n / 10) * 10 + n % 10 =
        acc * 10 ^ (natDigitsAux fuel (n / 10) ++ [Nat.digitChar (n % 10)]).length + n
      rw [List.length_append, List.length_singleton, pow_succ]
      have hdm := Nat.div_add_mod n 10
      have hx : acc * (10 ^ (natDigitsAux fuel (n / 10)).length * 10) =
          acc * 10 ^ (natDigitsAux fuel (n / 10)).length * 10 := by ring
      omega

/-- `natDigits` renders only digit characters and evaluates back to its
input. -/
theorem natDigits_spec (m : Nat) :
    (∀ c ∈ natDigits m, c.isDigit = true) ∧ digitsVal 0 (natDigits m) = m := by
  have hb : m < 10 ^ (m + 1) :=
    lt_of_lt_of_le (Nat.lt_pow_self (by norm_num) m)
      (Nat.pow_le_pow_right (by norm_num) (Nat.le_succ m))
  constructor
  · intro c hc
    obtain ⟨d, hd, rfl⟩ := natDigitsAux_chars _ _ c hc
    exact (digitChar_props d hd).1
  · have h := natDigitsAux_len_val (m + 1) m hb 0
    simpa using h

/-- A rendered natural is never the empty digit string. -/
theorem natDigits_ne_nil (m : Nat) : natDigits m ≠ [] := by
  show natDigitsAux (m + 1) m ≠ []
  by_cases h : m < 10 <;> simp [natDigitsAux, h]

/-- `str::parse::<i32>` on a nonempty all-digit string returns its Horner
value when that value is within bounds. -/
theorem parseI32_digits (c : Char) (cs : List Char)
    (hd : ∀ x ∈ c :: cs, x.isDigit = true)
    (hb : digitsVal 0 (c :: cs) ≤ 2147483647) :
    parseI32 ⟨c :: cs⟩ = .ok ((digitsVal 0 (c :: cs) : Nat) : Int) := by
  have hcd : c.isDigit = true := hd c (by simp)
  have hcm : ¬c = '-' := by
    intro hc
    rw [hc] at hcd
    exact absurd hcd (by decide)
  have hcp : ¬c = '+' := by
    intro hc
    rw [hc] at hcd
    exact absurd hcd (by decide)
  show (if c = '-' then
      if cs.isEmpty then (.error "invalid digit found in string" : Except String Int)
      else
        match parseI32digits true cs 0 with
        | .error e => .error e
        | .ok mag => .ok (-(mag : Int))
    else if c = '+' then
      if cs.isEmpty then .error "invalid digit found in string"
      else
        match parseI32digits false cs 0 with
        | .error e => .error e
        | .ok mag => .ok (mag : Int)
    else
      match parseI32digits false (c :: cs) 0 with
      | .error e => .error e
      | .ok mag => .ok (mag : Int)) = .ok ((digitsVal 0 (c :: cs) : Nat) : Int)
  rw [if_neg hcm, if_neg hcp,
    parseI32digits_ok false (c :: cs) 0 hd (by simpa using hb)]

/-- `str::parse::<i32>` on a minus sign followed by a nonempty all-digit
string returns the negated Horner value when within bounds. -/
theorem parseI32_neg_digits (l : List Char) (hne : l ≠ [])
    (hd : ∀ x ∈ l, x.isDigit = true) (hb : digitsVal 0 l ≤ 2147483648) :
    parseI32 ⟨'-' :: l⟩ = .ok (-(digitsVal 0 l : Int)) := by
  have hie : l.isEmpty = false := by
    rcases l with _ | ⟨c, cs⟩
    · exact absurd rfl hne
    · rfl
  show (if ('-' : Char) = '-' then
      if l.isEmpty then (.error "invalid digit found in string" : Except String Int)
      else
        match parseI32digits true l 0 with
        | .error e => .error e
        | .ok mag => .ok (-(mag : Int))
    else if ('-' : Char) = '+' then
      if l.isEmpty then .error "invalid digit found in string"
      else
        match parseI32digits false l 0 with
        | .error e => .error e
        | .ok mag => .ok (mag : Int)
    else
      match parseI32digits false ('-' :: l) 0 with
      | .error e => .error e
      | .ok mag => .ok (mag : Int)) = .ok (-(digitsVal 0 l : Int))
  rw [if_pos rfl, hie]
  simp only [Bool.false_eq_true, if_false]
  rw [parseI32digits_ok true l 0 hd (by simpa using hb)]

/-- `str::parse::<i32>` inverts the display rendering of any value in the
`i32` range. -/
theorem parseI32_intToText (n : Int) (h1 : -2147483648 ≤ n)
    (h2 : n ≤ 2147483647) : parseI32 (intToText n) = .ok n := by
  obtain ⟨hdig, hval⟩ := natDigits_spec n.natAbs
  by_cases hneg : n < 0
  · rw [intToText, if_pos hneg]
    rw [parseI32_neg_digits (natDigits n.natAbs) (natDigits_ne_nil _) hdig
      (by rw [hval]; omega)]
    rw [hval]
    congr 1
    omega
  · rw [intToText, if_neg hneg]
    rcases hni : natDigits n.natAbs with _ | ⟨c, cs⟩
    · exact absurd hni (natDigits_ne_nil _)
    · rw [hni] at hdig hval
      rw [parseI32_digits c cs hdig (by rw [hval]; omega), hval]
      congr 1
      omega

/-- Entering a nonempty element loop with the sequence-retraction flag set is
the same as entering with the retraction already applied. -/
theorem serElems_cons_flag (v : Value) (vs : ValueList) (st : SState) :
    serElems (.cons v vs) { st with is_first_elem_of_seq := true } =
      serElems (.cons v vs)
        { st with output := popAmp st.output, is_first_elem_of_seq := false } := by
  obtain ⟨f, out, ck, q, z⟩ := st
  cases ck <;> rfl

/-- After the first element's retraction, each element of an `i32` sequence
appends `&key=<value>` to the output. -/
theorem serElems_i32 (key : String) (xs : List Int) :
    ∀ (out : List Char) (q : Bool),
      serElems (i32Elems xs) ⟨false, out, some key, false, q⟩ =
        .ok ⟨false, out ++ seqTail key xs, some key, false, q⟩ := by
  induction xs with
  | nil => intro out q; simp [i32Elems, serElems, seqTail]
  | cons x rest ih =>
    intro out q
    simp only [i32Elems, serElems, serValue, Bool.false_eq_true, if_false]
    rw [ih]
    simp [seqTail, List.append_assoc]

/-- If some `&`-piece does not split on `=` into exactly two parts, the
`try_fold` of `Deserializer::try_from_str` stops with an error. -/
theorem parsePiecesAux_malformed (pieces : List (List Char)) (acc : AList)
    (h : (pieces.any fun p => (splitOnChar '=' p).length ≠ 2) = true) :
    ∃ e, parsePiecesAux pieces acc = .error e := by
  induction pieces generalizing acc with
  | nil => simp at h
  | cons p rest ih =>
    rcases hsp : splitOnChar '=' p with _ | ⟨k, _ | ⟨v, _ | ⟨w, ws⟩⟩⟩
    · exact ⟨⟨"invalid key", none⟩, by simp [parsePiecesAux, hsp]⟩
    · exact ⟨⟨"invalid value", none⟩, by simp [parsePiecesAux, hsp]⟩
    · have hrest : (rest.any fun p => (splitOnChar '=' p).length ≠ 2) = true := by
        simpa [hsp] using h
      obtain ⟨e, he⟩ := ih (insertVal ⟨k⟩ ⟨v⟩ acc) hrest
      exact ⟨e, by simp [parsePiecesAux, hsp, he]⟩
    · exact ⟨⟨"invalid pair", none⟩, by simp [parsePiecesAux, hsp]⟩

/-- C2: serializing the record `{name:"test", age:37, pagination:{limit:10,
offset:0}, ids:[1,2], hobbies:Some(["moto","code"]), op:Some("some")}` with
`to_string` returns exactly
`"name=test&age=37&limit=10&offset=0&ids=1&ids=2&hobbies=moto&hobbies=code&op=some"`. -/
theorem encode_literal_scenario :
    to_string seVal =
      .ok "name=test&age=37&limit=10&offset=0&ids=1&ids=2&hobbies=moto&hobbies=code&op=some" := by
  decide

/-- C8: decoding `"age=notanumber"` into a record with an `i32` field `age`
fails with the message `"invalid i32 literial"` describing the bad literal, and
the cause field is `Some`, wrapping the numeric parse failure
`"invalid digit found in string"`. -/
theorem scalar_mismatch_error :
    from_str c8Shape "age=notanumber" =
      .error ⟨"invalid i32 literial", some "invalid digit found in string"⟩ := by
  decide

/-- C10: decoding the empty string fails for every target shape with the
`"invalid value"` pair-parse error (the single empty piece has no `=`), so the
actix-web `Query` extractor rejects any request with an empty query string. -/
theorem empty_input_fails (sh : Shape) :
    from_str sh "" = .error ⟨"invalid value", none⟩ ∧
      queryFromRequest sh "" = .badRequest ⟨"invalid value", none⟩ :=
  ⟨rfl, rfl⟩

/-- C7: an input containing a malformed pair (a piece with more than one `=`
such as `a=b=c`, or a piece with no `=` such as `novalue`) makes `from_str`
fail with the same syntax error for every target shape, before any field of
the target is read — so no partially populated value can be produced. -/
theorem malformed_pair_fails (s : String) (h : hasMalformedPiece s = true) :
    ∃ e : Err, ∀ sh : Shape, from_str sh s = .error e := by
  obtain ⟨e, he⟩ := parsePiecesAux_malformed (splitOnChar '&' s.data) []
    (by simpa [hasMalformedPiece] using h)
  exact ⟨e, fun sh => by simp [from_str, parsePairs, he]⟩

/-- C7 witness: `"a=b=c"` is malformed and `from_str` rejects it uniformly. -/
theorem malformed_pair_fails_witness :
    hasMalformedPiece "a=b=c" = true ∧
      ∃ e : Err, ∀ sh : Shape, from_str sh "a=b=c" = .error e :=
  ⟨by decide, malformed_pair_fails "a=b=c" (by decide)⟩

/-- C9 counterexample: with a failing array sub-codec, decoding
`"ids=notjson"` into `{ ids: Array<String> }` yields an error whose `cause` is
`None` (the failure goes through `serde::de::Error::custom`), not `Some` as the
claim states. -/
theorem array_subcodec_cause_cex :
    fromStrArrayIds failingSub "ids=notjson" =
      .error ⟨"expected value at line 1 column 1", none⟩ := by
  decide

/-- C9 amended: when the external array sub-codec fails on the stored value,
`Array::deserialize` fails with an `Error` carrying the sub-codec's message,
but its `cause` field is `None`, because the failure is routed through
`serde::de::Error::custom` which discards the cause. -/
theorem array_subcodec_error (sub : String → Except String (List String))
    (msg : String) (cv : Option (List String)) (s : String)
    (cv' : Option (List String))
    (hs : deserializeString cv = .ok (s, cv')) (hsub : sub s = .error msg) :
    arrayDeserialize sub cv = .error ⟨msg, none⟩ := by
  simp [arrayDeserialize, hs, hsub]

/-- C9 witness: the amended behaviour at the concrete input `"notjson"`. -/
theorem array_subcodec_error_witness :
    deserializeString (some ["notjson"]) = .ok ("notjson", none) ∧
      failingSub "notjson" = .error "expected value at line 1 column 1" ∧
      arrayDeserialize failingSub (some ["notjson"]) =
        .error ⟨"expected value at line 1 column 1", none⟩ :=
  ⟨by decide, by decide,
    array_subcodec_error failingSub "expected value at line 1 column 1"
      (some ["notjson"]) "notjson" none (by decide) (by decide)⟩

/-- C1 counterexample: the record `{op: None}` (scalar/optional fields only)
serializes to the empty string, and decoding the empty string fails with the
`"invalid value"` pair error, so `from_str(to_string(v)) ≠ Ok(v)`. -/
theorem roundtrip_cex :
    to_string c1CexVal = .ok "" ∧
      from_str c1CexShape "" = .error ⟨"invalid value", none⟩ := by
  constructor
  · rfl
  · decide

/-- C3 counterexample: in a record where the sequence field `ids = [1,2,3]` is
the first (and only) field, the encoder emits a spurious leading `'&'`: the
output is `"&ids=1&ids=2&ids=3"`, not the claimed `"ids=1&ids=2&ids=3"`. -/
theorem seq_leading_amp_cex :
    to_string c3CexVal = .ok "&ids=1&ids=2&ids=3" ∧
      to_string c3CexVal ≠ .ok "ids=1&ids=2&ids=3" := by
  constructor
  · decide
  · decide

/-- C4 counterexample: encoding the record whose only field is the empty
sequence `ids = []` produces `"ids="` — the field's key does appear in the
output, contradicting the claim that the field is omitted entirely. -/
theorem empty_seq_encode_cex :
    to_string c4CexVal = .ok "ids=" := by
  decide

/-- C4 amended: encoding an empty repeated-key sequence field leaves the
dangling `key=` with an empty value in the output (`{name:"t", ids:[]}`
encodes to `"name=t&ids="`), while decoding a text in which the key is absent
into a sequence field yields the empty sequence without error (the element
loop sees no current value and stops immediately). -/
theorem empty_seq_encode_decode :
    to_string c4Val = .ok "name=t&ids=" ∧
      (∀ (sh : Shape) (m : AList), decode (.sSeq sh) m none = .ok (.vSeq .nil, none)) ∧
      from_str c4Shape "name=t" = .ok c4Val := by
  refine ⟨by decide, fun sh m => rfl, by decide⟩

/-- The pair-tail renderer distributes over concatenation. -/
theorem renderTail_append (a b : List (String × String)) :
    renderTail (a ++ b) = renderTail a ++ renderTail b := by
  induction a with
  | nil => rfl
  | cons p rest ih => simp [renderTail, ih, List.append_assoc]

/-- Entering a nonempty field loop with the struct flag set first applies the
retraction (literal-state form of `serFields_cons_flag`). -/
theorem serFields_flag_lit (k1 : String) (v1 : Value) (rest : FieldVals)
    (f : Bool) (o : List Char) (c : Option String) (q : Bool) :
    serFields (.cons k1 v1 rest) ⟨f, o, c, q, true⟩ =
      serFields (.cons k1 v1 rest) ⟨f, popAmp o, c, q, false⟩ := rfl

/-- The separator never occurs inside the `key=` text of a separator-free
key. -/
theorem amp_notMem_keyEq {k : String} (hk : '&' ∉ k.data) :
    '&' ∉ k.data ++ ['='] := by
  intro hmem
  rcases List.mem_append.mp hmem with h | h
  · exact hk h
  · simp at h

mutual
/-- Serializing a good value right after its `[&]key=` has been written onto a
nonempty buffer appends exactly the rendered tail of the value's pairs. -/
theorem serValue_good (v : Value) (sh : Shape) (out : List Char) (k : String)
    (hv : goodV sh v = true) (hout : out ≠ []) (hk : '&' ∉ k.data) :
    ∃ ck, serValue v
        ⟨false, out ++ '&' :: (k.data ++ ['=']), some k, false, false⟩ =
      .ok ⟨false, out ++ renderTail (pairsV k v), ck, false, false⟩ := by
  cases v with
  | vStr s =>
    refine ⟨some k, ?_⟩
    show Except.ok (⟨false, (out ++ '&' :: (k.data ++ ['='])) ++ s.data,
      some k, false, false⟩ : SState) = _
    have hl : (out ++ '&' :: (k.data ++ ['='])) ++ s.data =
        out ++ renderTail (pairsV k (.vStr s)) := by
      simp [pairsV, renderTail, renderPair, List.append_assoc]
    rw [hl]
  | vI32 n =>
    refine ⟨some k, ?_⟩
    show Except.ok (⟨false, (out ++ '&' :: (k.data ++ ['='])) ++ (intToText n).data,
      some k, false, false⟩ : SState) = _
    have hl : (out ++ '&' :: (k.data ++ ['='])) ++ (intToText n).data =
        out ++ renderTail (pairsV k (.vI32 n)) := by
      simp [pairsV, renderTail, renderPair, List.append_assoc]
    rw [hl]
  | vNone =>
    refine ⟨some k, ?_⟩
    have hpop := @popAmp_append_amp out _ (amp_notMem_keyEq hk)
    have hemp : out.isEmpty = false := by
      cases out with
      | nil => exact absurd rfl hout
      | cons c cs => rfl
    show Except.ok
      (⟨if (popAmp (out ++ '&' :: (k.data ++ ['=']))).isEmpty then true else false,
        popAmp (out ++ '&' :: (k.data ++ ['='])), some k, false, false⟩ : SState) = _
    rw [hpop, hemp]
    simp [pairsV, renderTail]
  | vSome w =>
    cases sh with
    | sOpt sh2 =>
      have hw : goodV sh2 w = true := by
        have h2 := hv
        simp only [goodV, Bool.and_eq_true] at h2
        exact h2.2
      exact serValue_good w sh2 out k hw hout hk
    | sStr => simp [goodV] at hv
    | sI32 => simp [goodV] at hv
    | sSeq s => simp [goodV] at hv
    | sStruct fs => simp [goodV] at hv
  | vSeq vs =>
    cases sh <;> simp [goodV] at hv
  | vStruct gs =>
    cases sh with
    | sStruct fs =>
      cases gs with
      | nil => simp [goodV] at hv
      | cons k1 v1 restV =>
        have hgf : goodF fs (.cons k1 v1 restV) = true := by
          simpa [goodV] using hv
        obtain ⟨ck, hser⟩ :=
          serFields_good (.cons k1 v1 restV) fs out (some k) hgf hout
        refine ⟨ck, ?_⟩
        show serFields (.cons k1 v1 restV)
          ⟨false, out ++ '&' :: (k.data ++ ['=']), some k, false, true⟩ = _
        rw [serFields_flag_lit, popAmp_append_amp (amp_notMem_keyEq hk), hser]
        simp [pairsV]
    | sStr => simp [goodV] at hv
    | sI32 => simp [goodV] at hv
    | sOpt s => simp [goodV] at hv
    | sSeq s => simp [goodV] at hv

/-- The field loop on good fields, from a nonempty buffer with all flags
cleared, appends exactly the rendered tail of the fields' pairs. -/
theorem serFields_good (gs : FieldVals) (fs : FieldShapes) (out : List Char)
    (ck0 : Option String) (hv : goodF fs gs = true) (hout : out ≠ []) :
    ∃ ck, serFields gs ⟨false, out, ck0, false, false⟩ =
      .ok ⟨false, out ++ renderTail (pairsF gs), ck, false, false⟩ := by
  cases gs with
  | nil =>
    cases fs with
    | nil =>
      refine ⟨ck0, ?_⟩
      show Except.ok (⟨false, out, ck0, false, false⟩ : SState) = _
      simp [pairsF, renderTail]
    | cons k sh restS => simp [goodF] at hv
  | cons k2 v restV =>
    cases fs with
    | nil => simp [goodF] at hv
    | cons k sh restS =>
      have hv2 : (k = k2 ∧ wfText k = true ∧ goodV sh v = true) ∧
          goodF restS restV = true := by
        simpa [goodF, and_assoc] using hv
      obtain ⟨⟨hk12, hwk, hgv⟩, hgr⟩ := hv2
      subst hk12
      have hkamp : '&' ∉ k.data := wfText_amp hwk
      have hfe : fieldEntryState k ⟨false, out, ck0, false, false⟩ =
          ⟨false, out ++ '&' :: (k.data ++ ['=']), some k, false, false⟩ := by
        simp [fieldEntryState, List.append_assoc]
      have hne2 : out ++ renderTail (pairsV k v) ≠ [] := by
        intro hc
        exact hout (List.append_eq_nil.mp hc).1
      obtain ⟨ck1, hval⟩ := serValue_good v sh out k hgv hout hkamp
      obtain ⟨ck2, hrest⟩ := serFields_good restV restS
        (out ++ renderTail (pairsV k v)) ck1 hgr hne2
      refine ⟨ck2, ?_⟩
      rw [serFields_cons_eq, hfe, hval]
      show serFields restV
        ⟨false, out ++ renderTail (pairsV k v), ck1, false, false⟩ = _
      rw [hrest]
      have hl : (out ++ renderTail (pairsV k v)) ++ renderTail (pairsF restV) =
          out ++ renderTail (pairsF (.cons k v restV)) := by
        simp [pairsF, renderTail_append, List.append_assoc]
      rw [hl]
end

/-- The first field's value (a scalar or a present optional over a scalar),
serialized right after the initial `key=` write, produces exactly the first
rendered pair. -/
theorem serValue_lead (v : Value) (sh : Shape) (k : String)
    (hv : leadV sh v = true) :
    ∃ ck t, pairsV k v = [(k, t)] ∧
      serValue v ⟨false, k.data ++ ['='], some k, false, false⟩ =
        .ok ⟨false, renderPairs [(k, t)], ck, false, false⟩ := by
  cases v with
  | vStr s =>
    refine ⟨some k, s, by simp [pairsV], ?_⟩
    show Except.ok (⟨false, (k.data ++ ['=']) ++ s.data,
      some k, false, false⟩ : SState) = _
    have hl : (k.data ++ ['=']) ++ s.data = renderPairs [(k, s)] := by
      simp [renderPairs, renderPair, renderTail, List.append_assoc]
    rw [hl]
  | vI32 n =>
    refine ⟨some k, intToText n, by simp [pairsV], ?_⟩
    show Except.ok (⟨false, (k.data ++ ['=']) ++ (intToText n).data,
      some k, false, false⟩ : SState) = _
    have hl : (k.data ++ ['=']) ++ (intToText n).data =
        renderPairs [(k, intToText n)] := by
      simp [renderPairs, renderPair, renderTail, List.append_assoc]
    rw [hl]
  | vNone => cases sh <;> simp [leadV, scalarShape, goodV] at hv
  | vSome w =>
    cases sh with
    | sOpt sh2 =>
      have hv2 : scalarShape sh2 = true ∧ goodV sh2 w = true := by
        simpa [leadV] using hv
      cases sh2 with
      | sStr =>
        cases w with
        | vStr s =>
          refine ⟨some k, s, by simp [pairsV], ?_⟩
          show Except.ok (⟨false, (k.data ++ ['=']) ++ s.data,
            some k, false, false⟩ : SState) = _
          have hl : (k.data ++ ['=']) ++ s.data = renderPairs [(k, s)] := by
            simp [renderPairs, renderPair, renderTail, List.append_assoc]
          rw [hl]
        | vI32 n => simp [goodV] at hv2
        | vNone => simp [goodV] at hv2
        | vSome u => simp [goodV] at hv2
        | vSeq vs => simp [goodV] at hv2
        | vStruct gs => simp [goodV] at hv2
      | sI32 =>
        cases w with
        | vI32 n =>
          refine ⟨some k, intToText n, by simp [pairsV], ?_⟩
          show Except.ok (⟨false, (k.data ++ ['=']) ++ (intToText n).data,
            some k, false, false⟩ : SState) = _
          have hl : (k.data ++ ['=']) ++ (intToText n).data =
              renderPairs [(k, intToText n)] := by
            simp [renderPairs, renderPair, renderTail, List.append_assoc]
          rw [hl]
        | vStr s => simp [goodV] at hv2
        | vNone => simp [goodV] at hv2
        | vSome u => simp [goodV] at hv2
        | vSeq vs => simp [goodV] at hv2
        | vStruct gs => simp [goodV] at hv2
      | sOpt s => simp [scalarShape] at hv2
      | sSeq s => simp [scalarShape] at hv2
      | sStruct f => simp [scalarShape] at hv2
    | sStr => simp [leadV, goodV] at hv
    | sI32 => simp [leadV, goodV] at hv
    | sSeq s => simp [leadV, scalarShape] at hv
    | sStruct f => simp [leadV, scalarShape] at hv
  | vSeq vs => cases sh <;> simp [leadV, scalarShape, goodV] at hv
  | vStruct gs => cases sh <;> simp [leadV, scalarShape, goodV] at hv

/-- Encoding a good top-level record writes exactly the rendered pair list. -/
theorem to_string_good (fs : FieldShapes) (gs : FieldVals)
    (hg : goodTop (.sStruct fs) (.vStruct gs) = true) :
    to_string (.vStruct gs) = .ok ⟨renderPairs (pairsF gs)⟩ := by
  cases fs with
  | nil => simp [goodTop] at hg
  | cons k sh restS =>
    cases gs with
    | nil => simp [goodTop] at hg
    | cons k2 v restV =>
      have hg2 : (((k = k2 ∧ wfText k = true) ∧ leadV sh v = true) ∧
          goodF restS restV = true) ∧
          (treeNames (.cons k sh restS) (.cons k2 v restV)).Nodup := by
        simpa [goodTop, and_assoc] using hg
      obtain ⟨⟨⟨⟨hk12, hwk⟩, hlv⟩, hgr⟩, hnd⟩ := hg2
      subst hk12
      obtain ⟨ck1, t, hpv, hlead⟩ := serValue_lead v sh k hlv
      have hne1 : renderPairs [(k, t)] ≠ [] := by
        simp [renderPairs, renderPair, renderTail]
      obtain ⟨ck2, hrest⟩ := serFields_good restV restS
        (renderPairs [(k, t)]) ck1 hgr hne1
      show (match serValue (.vStruct (.cons k v restV)) serInit with
        | .error e => (.error e : Except Err String)
        | .ok st => .ok (⟨st.output⟩ : String)) = _
      rw [show serValue (.vStruct (.cons k v restV)) serInit =
          serFields (.cons k v restV) ⟨true, [], none, false, true⟩ from rfl]
      rw [serFields_cons_eq]
      rw [show fieldEntryState k (⟨true, [], none, false, true⟩ : SState) =
          (⟨false, k.data ++ ['='], some k, false, false⟩ : SState) from rfl]
      rw [hlead]
      show (match serFields restV
          ⟨false, renderPairs [(k, t)], ck1, false, false⟩ with
        | .error e => (.error e : Except Err String)
        | .ok st => .ok (⟨st.output⟩ : String)) = _
      rw [hrest]
      show Except.ok (⟨renderPairs [(k, t)] ++ renderTail (pairsF restV)⟩ : String) = _
      have hl : renderPairs [(k, t)] ++ renderTail (pairsF restV) =
          renderPairs (pairsF (.cons k v restV)) := by
        simp [pairsF, hpv, renderPairs, renderTail, renderPair, List.append_assoc]
      rw [hl]

/-- A present key is removable, and removal preserves every other key's
lookup. -/
theorem removeKey_of_lookup {k : String} {m : AList} {v : List String}
    (h : lookupKey k m = some v) :
    ∃ r, removeKey k m = some (v, r) ∧
      ∀ k2, k2 ≠ k → lookupKey k2 r = lookupKey k2 m := by
  induction m with
  | nil => simp [lookupKey] at h
  | cons x rest ih =>
    obtain ⟨k0, vs⟩ := x
    by_cases hk : k0 = k
    · subst hk
      have hv : vs = v := by simpa [lookupKey] using h
      subst hv
      refine ⟨rest, by simp [removeKey], ?_⟩
      intro k2 hne
      have h2 : ¬k0 = k2 := fun hc => hne hc.symm
      simp [lookupKey, h2]
    · have h1 : lookupKey k rest = some v := by simpa [lookupKey, hk] using h
      obtain ⟨r0, hrm, hpres⟩ := ih h1
      refine ⟨(k0, vs) :: r0, by simp [removeKey, hk, hrm], ?_⟩
      intro k2 hne
      by_cases h2 : k0 = k2
      · simp [lookupKey, h2]
      · simp [lookupKey, h2, hpres k2 hne]

/-- The singleton-entry map keeps the pair list's keys. -/
theorem mapPairEntry_keys (ps : List (String × String)) :
    (ps.map pairEntry).map Prod.fst = ps.map Prod.fst := by
  induction ps with
  | nil => rfl
  | cons p rest ih => simp [pairEntry, ih]

/-- In the singleton-entry map of a duplicate-free pair list, each pair's key
looks up exactly its singleton value. -/
theorem lookupKey_mapPairEntry {ps : List (String × String)} {k t : String}
    (hnd : (ps.map Prod.fst).Nodup) (h : (k, t) ∈ ps) :
    lookupKey k (ps.map pairEntry) = some [t] := by
  induction ps with
  | nil => simp at h
  | cons p rest ih =>
    obtain ⟨k0, t0⟩ := p
    simp only [List.map_cons, List.nodup_cons] at hnd
    rcases List.mem_cons.mp h with heq | hmem
    · cases heq
      simp [pairEntry, lookupKey]
    · have hne : ¬k0 = k := by
        intro hc
        subst hc
        exact hnd.1 (List.mem_map.mpr ⟨(k0, t), hmem, rfl⟩)
      simp [pairEntry, lookupKey, hne, ih hnd.2 hmem]

/-- Every shape needs at least one unit of decode fuel. -/
theorem shapeDepth_pos (sh : Shape) : 1 ≤ shapeDepth sh := by
  cases sh <;> simp [shapeDepth]

/-- A good scalar value's single pair round-trips through the scalar decode
under any map. -/
theorem scalar_roundtrip (f : Nat) (sh : Shape) (w : Value) (m : AList)
    (k : String) (hs : scalarShape sh = true) (hw : goodV sh w = true) :
    ∃ t, pairsV k w = [(k, t)] ∧
      decodeShapeF (f + 1) sh m (some [t]) = .ok (w, none) := by
  cases sh with
  | sStr =>
    cases w with
    | vStr s => exact ⟨s, by simp [pairsV], rfl⟩
    | vI32 n => simp [goodV] at hw
    | vNone => simp [goodV] at hw
    | vSome u => simp [goodV] at hw
    | vSeq vs => simp [goodV] at hw
    | vStruct gs => simp [goodV] at hw
  | sI32 =>
    cases w with
    | vI32 n =>
      refine ⟨intToText n, by simp [pairsV], ?_⟩
      have hb : -2147483648 ≤ n ∧ n ≤ 2147483647 := by
        simpa [goodV] using hw
      have hp := parseI32_intToText n hb.1 hb.2
      show (match parseI32 (intToText n) with
        | .error e => (.error ⟨"invalid i32 literial", some e⟩ :
            Except Err (Value × Option (List String)))
        | .ok x => .ok (.vI32 x, none)) = _
      rw [hp]
    | vStr s => simp [goodV] at hw
    | vNone => simp [goodV] at hw
    | vSome u => simp [goodV] at hw
    | vSeq vs => simp [goodV] at hw
    | vStruct gs => simp [goodV] at hw
  | sOpt s => simp [scalarShape] at hs
  | sSeq s => simp [scalarShape] at hs
  | sStruct f2 => simp [scalarShape] at hs

/-- A good field's own name occurs among its pairs' keys or its dead names. -/
theorem own_mem_V (k : String) (sh : Shape) (v : Value)
    (hv : goodV sh v = true) :
    k ∈ (pairsV k v).map Prod.fst ∨ k ∈ deadV k sh v := by
  cases v with
  | vStr s => left; simp [pairsV]
  | vI32 n => left; simp [pairsV]
  | vNone =>
    cases sh with
    | sOpt s => right; simp [deadV]
    | sStr => simp [goodV] at hv
    | sI32 => simp [goodV] at hv
    | sSeq s => simp [goodV] at hv
    | sStruct f => simp [goodV] at hv
  | vSome w =>
    cases sh with
    | sOpt sh2 =>
      have hv2 : scalarShape sh2 = true ∧ goodV sh2 w = true := by
        simpa [goodV] using hv
      obtain ⟨t, hpv, _⟩ := scalar_roundtrip 0 sh2 w [] k hv2.1 hv2.2
      left
      simp [pairsV, hpv]
    | sStr => simp [goodV] at hv
    | sI32 => simp [goodV] at hv
    | sSeq s => simp [goodV] at hv
    | sStruct f => simp [goodV] at hv
  | vSeq vs => cases sh <;> simp [goodV] at hv
  | vStruct gs =>
    cases sh with
    | sStruct f => right; simp [deadV]
    | sStr => simp [goodV] at hv
    | sI32 => simp [goodV] at hv
    | sOpt s => simp [goodV] at hv
    | sSeq s => simp [goodV] at hv

/-- The own names of a good field list all occur in its tree names. -/
theorem ownNames_mem_tree (fs : FieldShapes) (gs : FieldVals)
    (hg : goodF fs gs = true) :
    ∀ n ∈ ownNames fs, n ∈ (pairsF gs).map Prod.fst ∨ n ∈ deadF fs gs := by
  cases fs with
  | nil => intro n hn; simp [ownNames] at hn
  | cons k sh restS =>
    cases gs with
    | nil => simp [goodF] at hg
    | cons k2 v restV =>
      have hg2 : (k = k2 ∧ wfText k = true ∧ goodV sh v = true) ∧
          goodF restS restV = true := by
        simpa [goodF, and_assoc] using hg
      obtain ⟨⟨hk12, _, hgv⟩, hgr⟩ := hg2
      subst hk12
      intro n hn
      rcases List.mem_cons.mp (by simpa [ownNames] using hn) with rfl | hmem
      · rcases own_mem_V n sh v hgv with h | h
        · left
          simp only [pairsF, List.map_append, List.mem_append]
          exact Or.inl h
        · right
          simp only [deadF, List.mem_append]
          exact Or.inl h
      · rcases ownNames_mem_tree restS restV hgr n hmem with h | h
        · left
          simp only [pairsF, List.map_append, List.mem_append]
          exact Or.inr h
        · right
          simp only [deadF, List.mem_append]
          exact Or.inr h

/-- One step of the field loop, after the tail's outcome is known. -/
theorem decodeFieldsF_cons_step
    (dec : Shape → AList → Option (List String) →
      Except Err (Value × Option (List String)))
    (k : String) (sh : Shape) (restS : FieldShapes) (m : AList)
    (vs : FieldVals) (m1 : AList)
    (h : decodeFieldsF dec restS m none = .ok (vs, m1, none)) :
    decodeFieldsF dec (.cons k sh restS) m none =
      (match removeKey k m1 with
       | some (vv, m') =>
         (match dec sh m' (some vv) with
          | .error e => .error e
          | .ok (v2, cv3) => .ok (.cons k v2 vs, m', cv3))
       | none =>
         (match dec sh m1 none with
          | .error e => .error e
          | .ok (v2, cv3) => .ok (.cons k v2 vs, m1, cv3))) := by
  simp only [decodeFieldsF, h]
  cases hrm : removeKey k m1 with
  | none => rfl
  | some p =>
    obtain ⟨vv, m2⟩ := p
    rfl

/-- The struct field loop on good fields, over a map in which every live pair
looks up its singleton value and every dead name is absent, reconstructs
exactly the original field values, removes only the level's own names, and
leaves no current value behind. -/
theorem decodeFieldsF_good (fuel : Nat) (fs : FieldShapes) (gs : FieldVals)
    (m : AList) (hg : goodF fs gs = true) (hfuel : fieldsDepth fs ≤ fuel)
    (hnd : ((pairsF gs).map Prod.fst ++ deadF fs gs).Nodup)
    (hlive : ∀ p ∈ pairsF gs, lookupKey p.1 m = some [p.2])
    (hdead : ∀ n ∈ deadF fs gs, lookupKey n m = none) :
    ∃ m2, decodeFieldsF (decodeShapeF fuel) fs m none = .ok (gs, m2, none) ∧
      ∀ k2, k2 ∉ ownNames fs → lookupKey k2 m2 = lookupKey k2 m := by
  cases fs with
  | nil =>
    cases gs with
    | nil => exact ⟨m, rfl, fun _ _ => rfl⟩
    | cons k2 v restV => simp [goodF] at hg
  | cons k sh restS =>
    cases gs with
    | nil => simp [goodF] at hg
    | cons k2 v restV =>
      have hg2 : (k = k2 ∧ wfText k = true ∧ goodV sh v = true) ∧
          goodF restS restV = true := by
        simpa [goodF, and_assoc] using hg
      obtain ⟨⟨hk12, hwk, hgv⟩, hgr⟩ := hg2
      subst hk12
      have hf2 : max (shapeDepth sh) (fieldsDepth restS) ≤ fuel := by
        simpa [fieldsDepth] using hfuel
      have hsh : shapeDepth sh ≤ fuel := le_trans (Nat.le_max_left _ _) hf2
      have hrs : fieldsDepth restS ≤ fuel := le_trans (Nat.le_max_right _ _) hf2
      have hndA : ((pairsV k v).map Prod.fst ++ ((pairsF restV).map Prod.fst ++
          (deadV k sh v ++ deadF restS restV))).Nodup := by
        simpa [pairsF, deadF, List.map_append, List.append_assoc] using hnd
      have hA1disj := List.disjoint_of_nodup_append hndA
      have hndB := hndA.of_append_right
      have hA2disj := List.disjoint_of_nodup_append hndB
      have hndC := hndB.of_append_right
      have hB1disj := List.disjoint_of_nodup_append hndC
      have hd2 : ∀ x, (x ∈ (pairsV k v).map Prod.fst ∨ x ∈ deadV k sh v) →
          x ∉ ownNames restS := by
        intro x hx hown
        rcases ownNames_mem_tree restS restV hgr x hown with h | h
        · rcases hx with hx | hx
          · exact hA1disj hx (List.mem_append_left _ h)
          · exact hA2disj h (List.mem_append_left _ hx)
        · rcases hx with hx | hx
          · exact hA1disj hx (List.mem_append_right _ (List.mem_append_right _ h))
          · exact hB1disj hx h
      have hnd_rest : ((pairsF restV).map Prod.fst ++ deadF restS restV).Nodup := by
        refine List.Nodup.sublist ?_ hndB
        exact (List.Sublist.refl _).append (List.sublist_append_right _ _)
      have hlive_rest : ∀ p ∈ pairsF restV, lookupKey p.1 m = some [p.2] := by
        intro p hp
        refine hlive p ?_
        simp only [pairsF, List.mem_append]
        exact Or.inr hp
      have hdead_rest : ∀ n ∈ deadF restS restV, lookupKey n m = none := by
        intro n hn
        refine hdead n ?_
        simp only [deadF, List.mem_append]
        exact Or.inr hn
      obtain ⟨m1, hIH, hagree⟩ := decodeFieldsF_good fuel restS restV m hgr hrs
        hnd_rest hlive_rest hdead_rest
      cases fuel with
      | zero => exact absurd hsh (by have := shapeDepth_pos sh; omega)
      | succ f =>
        cases sh with
        | sStr =>
          obtain ⟨t, hpv, _⟩ := scalar_roundtrip f .sStr v [] k rfl hgv
          have hknotown : k ∉ ownNames restS := hd2 k (Or.inl (by simp [hpv]))
          have hlk : lookupKey k m1 = some [t] := by
            rw [hagree k hknotown]
            refine hlive (k, t) ?_
            simp only [pairsF, List.mem_append]
            exact Or.inl (by simp [hpv])
          obtain ⟨r, hrm, hpres⟩ := removeKey_of_lookup hlk
          obtain ⟨t2, hpv2, hdec⟩ := scalar_roundtrip f .sStr v r k rfl hgv
          have ht : t = t2 := by
            rw [hpv] at hpv2
            simpa using hpv2
          subst ht
          refine ⟨r, ?_, ?_⟩
          · rw [decodeFieldsF_cons_step _ k _ restS m restV m1 hIH, hrm]
            show (match decodeShapeF (f + 1) .sStr r (some [t]) with
              | .error e =>
                (.error e : Except Err (FieldVals × AList × Option (List String)))
              | .ok (v2, cv3) => .ok (.cons k v2 restV, r, cv3)) = _
            rw [hdec]
          · intro k2 hk2
            simp only [ownNames, List.mem_cons, not_or] at hk2
            rw [hpres k2 hk2.1, hagree k2 hk2.2]
        | sI32 =>
          obtain ⟨t, hpv, _⟩ := scalar_roundtrip f .sI32 v [] k rfl hgv
          have hknotown : k ∉ ownNames restS := hd2 k (Or.inl (by simp [hpv]))
          have hlk : lookupKey k m1 = some [t] := by
            rw [hagree k hknotown]
            refine hlive (k, t) ?_
            simp only [pairsF, List.mem_append]
            exact Or.inl (by simp [hpv])
          obtain ⟨r, hrm, hpres⟩ := removeKey_of_lookup hlk
          obtain ⟨t2, hpv2, hdec⟩ := scalar_roundtrip f .sI32 v r k rfl hgv
          have ht : t = t2 := by
            rw [hpv] at hpv2
            simpa using hpv2
          subst ht
          refine ⟨r, ?_, ?_⟩
          · rw [decodeFieldsF_cons_step _ k _ restS m restV m1 hIH, hrm]
            show (match decodeShapeF (f + 1) .sI32 r (some [t]) with
              | .error e =>
                (.error e : Except Err (FieldVals × AList × Option (List String)))
              | .ok (v2, cv3) => .ok (.cons k v2 restV, r, cv3)) = _
            rw [hdec]
          · intro k2 hk2
            simp only [ownNames, List.mem_cons, not_or] at hk2
            rw [hpres k2 hk2.1, hagree k2 hk2.2]
        | sOpt sh2 =>
          cases v with
          | vNone =>
            have hknotown : k ∉ ownNames restS := hd2 k (Or.inr (by simp [deadV]))
            have hlk : lookupKey k m1 = none := by
              rw [hagree k hknotown]
              refine hdead k ?_
              simp only [deadF, List.mem_append]
              exact Or.inl (by simp [deadV])
            have hrmn : removeKey k m1 = none := removeKey_eq_none.mpr hlk
            refine ⟨m1, ?_, ?_⟩
            · rw [decodeFieldsF_cons_step _ k _ restS m restV m1 hIH, hrmn]
              rfl
            · intro k2 hk2
              simp only [ownNames, List.mem_cons, not_or] at hk2
              exact hagree k2 hk2.2
          | vSome w =>
            have hv2 : scalarShape sh2 = true ∧ goodV sh2 w = true := by
              simpa [goodV] using hgv
            have hsd : shapeDepth sh2 + 1 ≤ f + 1 := by
              simpa [shapeDepth] using hsh
            cases f with
            | zero => exact absurd hsd (by have := shapeDepth_pos sh2; omega)
            | succ f2 =>
              obtain ⟨t, hpv, _⟩ := scalar_roundtrip f2 sh2 w [] k hv2.1 hv2.2
              have hpv' : pairsV k (Value.vSome w) = [(k, t)] := by
                simpa [pairsV] using hpv
              have hknotown : k ∉ ownNames restS := hd2 k (Or.inl (by simp [hpv']))
              have hlk : lookupKey k m1 = some [t] := by
                rw [hagree k hknotown]
                refine hlive (k, t) ?_
                simp only [pairsF, List.mem_append]
                exact Or.inl (by simp [hpv'])
              obtain ⟨r, hrm, hpres⟩ := removeKey_of_lookup hlk
              obtain ⟨t2, hpv2, hdec⟩ := scalar_roundtrip f2 sh2 w r k hv2.1 hv2.2
              have ht : t = t2 := by
                rw [hpv] at hpv2
                simpa using hpv2
              subst ht
              refine ⟨r, ?_, ?_⟩
              · rw [decodeFieldsF_cons_step _ k _ restS m restV m1 hIH, hrm]
                show (match (match decodeShapeF (f2 + 1) sh2 r (some [t]) with
                    | .error e =>
                      (.error e : Except Err (Value × Option (List String)))
                    | .ok (w2, _) => .ok (.vSome w2, none)) with
                  | .error e =>
                    (.error e :
                      Except Err (FieldVals × AList × Option (List String)))
                  | .ok (v2, cv3) => .ok (.cons k v2 restV, r, cv3)) = _
                rw [hdec]
              · intro k2 hk2
                simp only [ownNames, List.mem_cons, not_or] at hk2
                rw [hpres k2 hk2.1, hagree k2 hk2.2]
          | vStr s => simp [goodV] at hgv
          | vI32 n => simp [goodV] at hgv
          | vSeq vs => simp [goodV] at hgv
          | vStruct gs2 => simp [goodV] at hgv
        | sSeq s2 => cases v <;> simp [goodV] at hgv
        | sStruct fs2 =>
          cases v with
          | vStruct gs2 =>
            have hgf2 : goodF fs2 gs2 = true := by
              cases gs2 with
              | nil => simp [goodV] at hgv
              | cons a b c => simpa [goodV] using hgv
            have hknotown : k ∉ ownNames restS := hd2 k (Or.inr (by simp [deadV]))
            have hlk : lookupKey k m1 = none := by
              rw [hagree k hknotown]
              refine hdead k ?_
              simp only [deadF, List.mem_append]
              exact Or.inl (by simp [deadV])
            have hrmn : removeKey k m1 = none := removeKey_eq_none.mpr hlk
            have hsd : fieldsDepth fs2 + 1 ≤ f + 1 := by
              simpa [shapeDepth] using hsh
            have hsd2 : fieldsDepth fs2 ≤ f := by omega
            have hndA' : ((pairsF gs2).map Prod.fst ++
                ((pairsF restV).map Prod.fst ++
                  ((k :: deadF fs2 gs2) ++ deadF restS restV))).Nodup := by
              simpa [pairsV, deadV] using hndA
            have hndN : ((pairsF gs2).map Prod.fst ++ deadF fs2 gs2).Nodup := by
              refine List.Nodup.sublist ?_ hndA'
              refine (List.Sublist.refl _).append ?_
              have c1 : List.Sublist (deadF fs2 gs2) (k :: deadF fs2 gs2) :=
                List.sublist_cons_self _ _
              have c2 : List.Sublist (k :: deadF fs2 gs2)
                  ((k :: deadF fs2 gs2) ++ deadF restS restV) :=
                List.sublist_append_left _ _
              have c3 : List.Sublist ((k :: deadF fs2 gs2) ++ deadF restS restV)
                  ((pairsF restV).map Prod.fst ++
                    ((k :: deadF fs2 gs2) ++ deadF restS restV)) :=
                List.sublist_append_right _ _
              exact c1.trans (c2.trans c3)
            have hliveN : ∀ p ∈ pairsF gs2, lookupKey p.1 m1 = some [p.2] := by
              intro p hp
              have hmem1 : p.1 ∈ (pairsV k (Value.vStruct gs2)).map Prod.fst := by
                simp only [pairsV]
                exact List.mem_map_of_mem Prod.fst hp
              rw [hagree p.1 (hd2 p.1 (Or.inl hmem1))]
              refine hlive p ?_
              simp only [pairsF, List.mem_append]
              exact Or.inl (by simpa [pairsV] using hp)
            have hdeadN : ∀ n ∈ deadF fs2 gs2, lookupKey n m1 = none := by
              intro n hn
              have hmem1 : n ∈ deadV k (Shape.sStruct fs2) (Value.vStruct gs2) := by
                simp only [deadV, List.mem_cons]
                exact Or.inr hn
              rw [hagree n (hd2 n (Or.inr hmem1))]
              refine hdead n ?_
              simp only [deadF, List.mem_append]
              exact Or.inl hmem1
            obtain ⟨m3, hrec, _⟩ :=
              decodeFieldsF_good f fs2 gs2 m1 hgf2 hsd2 hndN hliveN hdeadN
            refine ⟨m1, ?_, ?_⟩
            · rw [decodeFieldsF_cons_step _ k _ restS m restV m1 hIH, hrmn]
              show (match (match decodeFieldsF (decodeShapeF f) fs2 m1 none with
                  | .error e =>
                    (.error e : Except Err (Value × Option (List String)))
                  | .ok (fvs, _, _) => .ok (.vStruct fvs, none)) with
                | .error e =>
                  (.error e :
                    Except Err (FieldVals × AList × Option (List String)))
                | .ok (v2, cv3) => .ok (.cons k v2 restV, m1, cv3)) = _
              rw [hrec]
            · intro k2 hk2
              simp only [ownNames, List.mem_cons, not_or] at hk2
              exact hagree k2 hk2.2
          | vStr s => simp [goodV] at hgv
          | vI32 n => simp [goodV] at hgv
          | vNone => simp [goodV] at hgv
          | vSome w => simp [goodV] at hgv
          | vSeq vs => simp [goodV] at hgv

mutual
/-- All pairs a good field contributes are separator-free. -/
theorem wfPairsV (k : String) (sh : Shape) (v : Value) (hwk : wfText k = true)
    (hv : goodV sh v = true) : ∀ p ∈ pairsV k v, wfPair p = true := by
  cases v with
  | vStr s =>
    cases sh with
    | sStr =>
      intro p hp
      have hps : p = (k, s) := by simpa [pairsV] using hp
      subst hps
      have hws : wfText s = true := by simpa [goodV] using hv
      simp [wfPair, hwk, hws]
    | sI32 => simp [goodV] at hv
    | sOpt s2 => simp [goodV] at hv
    | sSeq s2 => simp [goodV] at hv
    | sStruct f2 => simp [goodV] at hv
  | vI32 n =>
    intro p hp
    have hps : p = (k, intToText n) := by simpa [pairsV] using hp
    subst hps
    simp [wfPair, hwk, wfText_intToText]
  | vNone =>
    intro p hp
    simp [pairsV] at hp
  | vSome w =>
    cases sh with
    | sOpt sh2 =>
      have hw : goodV sh2 w = true := by
        have h2 := hv
        simp only [goodV, Bool.and_eq_true] at h2
        exact h2.2
      intro p hp
      exact wfPairsV k sh2 w hwk hw p (by simpa [pairsV] using hp)
    | sStr => simp [goodV] at hv
    | sI32 => simp [goodV] at hv
    | sSeq s2 => simp [goodV] at hv
    | sStruct f2 => simp [goodV] at hv
  | vSeq vs =>
    intro p hp
    simp [pairsV] at hp
  | vStruct gs =>
    cases sh with
    | sStruct fs =>
      have hgf : goodF fs gs = true := by
        cases gs with
        | nil => simp [goodV] at hv
        | cons a b c => simpa [goodV] using hv
      intro p hp
      exact wfPairsF fs gs hgf p (by simpa [pairsV] using hp)
    | sStr => simp [goodV] at hv
    | sI32 => simp [goodV] at hv
    | sOpt s2 => simp [goodV] at hv
    | sSeq s2 => simp [goodV] at hv

/-- All pairs a good field list contributes are separator-free. -/
theorem wfPairsF (fs : FieldShapes) (gs : FieldVals) (hg : goodF fs gs = true) :
    ∀ p ∈ pairsF gs, wfPair p = true := by
  cases fs with
  | nil =>
    cases gs with
    | nil => intro p hp; simp [pairsF] at hp
    | cons k2 v restV => simp [goodF] at hg
  | cons k sh restS =>
    cases gs with
    | nil => simp [goodF] at hg
    | cons k2 v restV =>
      have hg2 : (k = k2 ∧ wfText k = true ∧ goodV sh v = true) ∧
          goodF restS restV = true := by
        simpa [goodF, and_assoc] using hg
      obtain ⟨⟨hk12, hwk, hgv⟩, hgr⟩ := hg2
      subst hk12
      intro p hp
      rcases List.mem_append.mp (by simpa [pairsF] using hp) with h | h
      · exact wfPairsV k sh v hwk hgv p h
      · exact wfPairsF restS restV hgr p h
end

/-- A value allowed in the lead position is in particular good. -/
theorem leadV_goodV {sh : Shape} {v : Value} (h : leadV sh v = true) :
    goodV sh v = true := by
  cases sh with
  | sOpt sh2 =>
    cases v with
    | vSome w => simpa [leadV, goodV] using h
    | vNone => simp [leadV] at h
    | vStr s => simp [leadV, scalarShape] at h
    | vI32 n => simp [leadV, scalarShape] at h
    | vSeq vs => simp [leadV, scalarShape] at h
    | vStruct gs => simp [leadV, scalarShape] at h
  | sStr =>
    cases v with
    | vStr s => simpa [leadV, scalarShape, goodV] using h
    | vI32 n => simp [leadV, scalarShape, goodV] at h
    | vNone => simp [leadV, scalarShape, goodV] at h
    | vSome w => simp [leadV, scalarShape, goodV] at h
    | vSeq vs => simp [leadV, scalarShape, goodV] at h
    | vStruct gs => simp [leadV, scalarShape, goodV] at h
  | sI32 =>
    cases v with
    | vI32 n => simpa [leadV, scalarShape, goodV] using h
    | vStr s => simp [leadV, scalarShape, goodV] at h
    | vNone => simp [leadV, scalarShape, goodV] at h
    | vSome w => simp [leadV, scalarShape, goodV] at h
    | vSeq vs => simp [leadV, scalarShape, goodV] at h
    | vStruct gs => simp [leadV, scalarShape, goodV] at h
  | sSeq s2 => cases v <;> simp [leadV, scalarShape] at h
  | sStruct f2 => cases v <;> simp [leadV, scalarShape] at h

/-- C1 (amended): the round trip does hold on the class the codec handles
cleanly — a nonempty top-level record whose first field is a scalar or a
present optional, whose fields are separator-free scalars, optionals over
scalars, or nonempty nested records of such fields (no sequences), with all
field names in the tree mutually distinct. For every such record value `v`,
`from_str (to_string v) = Ok(v)`. The class exclusions are real: the literal
claim fails already for the all-optional-absent record (see the
counterexample), and sequences, empty nested records, first-position nested
records, and duplicated names each break either the encoder or the
decoder. -/
theorem roundtrip_good (sh : Shape) (v : Value) (h : goodTop sh v = true) :
    ∃ out, to_string v = .ok out ∧ from_str sh out = .ok v := by
  cases sh with
  | sStruct fsl =>
    cases v with
    | vStruct gsl =>
      cases fsl with
      | nil => simp [goodTop] at h
      | cons k sh1 restS =>
        cases gsl with
        | nil => simp [goodTop] at h
        | cons k2 v1 restV =>
          have hg2 : (((k = k2 ∧ wfText k = true) ∧ leadV sh1 v1 = true) ∧
              goodF restS restV = true) ∧
              (treeNames (.cons k sh1 restS) (.cons k2 v1 restV)).Nodup := by
            simpa [goodTop, and_assoc] using h
          obtain ⟨⟨⟨⟨hk12, hwk⟩, hlv⟩, hgr⟩, hnd⟩ := hg2
          subst hk12
          have hgF : goodF (.cons k sh1 restS) (.cons k v1 restV) = true := by
            simp [goodF, hwk, leadV_goodV hlv, hgr]
          have hnd' : ((pairsF (.cons k v1 restV)).map Prod.fst ++
              deadF (.cons k sh1 restS) (.cons k v1 restV)).Nodup := hnd
          have hwfps : ∀ p ∈ pairsF (.cons k v1 restV), wfPair p = true :=
            wfPairsF _ _ hgF
          have hndps : ((pairsF (.cons k v1 restV)).map Prod.fst).Nodup :=
            hnd'.of_append_left
          obtain ⟨ck0, t, hpv, _⟩ := serValue_lead v1 sh1 k hlv
          have hpsne : pairsF (.cons k v1 restV) ≠ [] := by
            simp [pairsF, hpv]
          have henc := to_string_good (.cons k sh1 restS) (.cons k v1 restV) h
          refine ⟨⟨renderPairs (pairsF (.cons k v1 restV))⟩, henc, ?_⟩
          have hparse : parsePairs ⟨renderPairs (pairsF (.cons k v1 restV))⟩ =
              .ok ((pairsF (.cons k v1 restV)).map pairEntry) :=
            parsePairs_render hwfps hndps hpsne
          have hlive : ∀ p ∈ pairsF (.cons k v1 restV),
              lookupKey p.1 ((pairsF (.cons k v1 restV)).map pairEntry) =
                some [p.2] := by
            intro p hp
            obtain ⟨p1, p2⟩ := p
            exact lookupKey_mapPairEntry hndps hp
          have hdead : ∀ n ∈ deadF (.cons k sh1 restS) (.cons k v1 restV),
              lookupKey n ((pairsF (.cons k v1 restV)).map pairEntry) =
                none := by
            intro n hn
            have hdisj := List.disjoint_of_nodup_append hnd'
            have hnmem : n ∉ (pairsF (.cons k v1 restV)).map Prod.fst :=
              fun hc => hdisj hc hn
            apply lookupKey_eq_none_of_notMem
            rw [mapPairEntry_keys]
            exact hnmem
          obtain ⟨m2, hdec, _⟩ := decodeFieldsF_good
            (fieldsDepth (.cons k sh1 restS)) (.cons k sh1 restS)
            (.cons k v1 restV) ((pairsF (.cons k v1 restV)).map pairEntry)
            hgF (le_refl _) hnd' hlive hdead
          show (match parsePairs
              (⟨renderPairs (pairsF (.cons k v1 restV))⟩ : String) with
            | .error e => (.error e : Except Err Value)
            | .ok m =>
              match decode (.sStruct (.cons k sh1 restS)) m none with
              | .error e => .error e
              | .ok (v2, _) => .ok v2) = _
          rw [hparse]
          show (match (match decodeFieldsF
                (decodeShapeF (fieldsDepth (.cons k sh1 restS)))
                (.cons k sh1 restS)
                ((pairsF (.cons k v1 restV)).map pairEntry) none with
              | .error e => (.error e : Except Err (Value × Option (List String)))
              | .ok (fvs, _, _) => .ok (.vStruct fvs, none)) with
            | .error e => (.error e : Except Err Value)
            | .ok (v2, _) => .ok v2) = _
          rw [hdec]
    | vStr s => simp [goodTop] at h
    | vI32 n => simp [goodTop] at h
    | vNone => simp [goodTop] at h
    | vSome w => simp [goodTop] at h
    | vSeq vs => simp [goodTop] at h
  | sStr => cases v <;> simp [goodTop] at h
  | sI32 => cases v <;> simp [goodTop] at h
  | sOpt s2 => cases v <;> simp [goodTop] at h
  | sSeq s2 => cases v <;> simp [goodTop] at h

/-- Witness for the amended round trip: the test-suite-style record
`{name:"test", age:37, pagination:{limit:10, offset:0}, q:None,
op:Some("some")}` is in the good class and round-trips. -/
theorem roundtrip_good_witness :
    goodTop
      (.sStruct (.cons "name" .sStr (.cons "age" .sI32
        (.cons "pagination"
          (.sStruct (.cons "limit" .sI32 (.cons "offset" .sI32 .nil)))
        (.cons "q" (.sOpt .sI32) (.cons "op" (.sOpt .sStr) .nil))))))
      (.vStruct (.cons "name" (.vStr "test") (.cons "age" (.vI32 37)
        (.cons "pagination"
          (.vStruct (.cons "limit" (.vI32 10) (.cons "offset" (.vI32 0) .nil)))
        (.cons "q" .vNone (.cons "op" (.vSome (.vStr "some")) .nil)))))) =
      true ∧
    ∃ out,
      to_string (.vStruct (.cons "name" (.vStr "test") (.cons "age" (.vI32 37)
        (.cons "pagination"
          (.vStruct (.cons "limit" (.vI32 10) (.cons "offset" (.vI32 0) .nil)))
        (.cons "q" .vNone (.cons "op" (.vSome (.vStr "some")) .nil)))))) =
          .ok out ∧
      from_str
        (.sStruct (.cons "name" .sStr (.cons "age" .sI32
          (.cons "pagination"
            (.sStruct (.cons "limit" .sI32 (.cons "offset" .sI32 .nil)))
          (.cons "q" (.sOpt .sI32) (.cons "op" (.sOpt .sStr) .nil))))))
        out =
        .ok (.vStruct (.cons "name" (.vStr "test") (.cons "age" (.vI32 37)
          (.cons "pagination"
            (.vStruct (.cons "limit" (.vI32 10) (.cons "offset" (.vI32 0) .nil)))
          (.cons "q" .vNone (.cons "op" (.vSome (.vStr "some")) .nil)))))) :=
  ⟨by decide, roundtrip_good _ _ (by decide)⟩

/-- The rendering of a nonempty pair list is nonempty. -/
theorem renderPairs_ne_nil {ps : List (String × String)} (h : ps ≠ []) :
    renderPairs ps ≠ [] := by
  cases ps with
  | nil => exact absurd rfl h
  | cons p rest =>
    simp only [renderPairs, renderPair]
    intro hc
    have h1 := (List.append_eq_nil.mp hc).1
    have h2 := (List.append_eq_nil.mp h1).2
    exact List.cons_ne_nil _ _ h2

/-- Running the field loop of a good top-level record from the initial
serializer state (struct retraction pending) writes exactly its rendered
pairs, at least one of them, and ends with all flags cleared. -/
theorem serFields_top (fsPre : FieldShapes) (pre : FieldVals)
    (h : goodTop (.sStruct fsPre) (.vStruct pre) = true) :
    pairsF pre ≠ [] ∧
    ∃ ck, serFields pre ⟨true, [], none, false, true⟩ =
      .ok ⟨false, renderPairs (pairsF pre), ck, false, false⟩ := by
  cases fsPre with
  | nil => simp [goodTop] at h
  | cons k sh1 restS =>
    cases pre with
    | nil => simp [goodTop] at h
    | cons k2 v1 restV =>
      have hg2 : (((k = k2 ∧ wfText k = true) ∧ leadV sh1 v1 = true) ∧
          goodF restS restV = true) ∧
          (treeNames (.cons k sh1 restS) (.cons k2 v1 restV)).Nodup := by
        simpa [goodTop, and_assoc] using h
      obtain ⟨⟨⟨⟨hk12, hwk⟩, hlv⟩, hgr⟩, _⟩ := hg2
      subst hk12
      obtain ⟨ck1, t, hpv, hlead⟩ := serValue_lead v1 sh1 k hlv
      have hne1 : renderPairs [(k, t)] ≠ [] := by
        simp [renderPairs, renderPair, renderTail]
      obtain ⟨ck2, hrest⟩ := serFields_good restV restS
        (renderPairs [(k, t)]) ck1 hgr hne1
      refine ⟨by simp [pairsF, hpv], ck2, ?_⟩
      rw [serFields_cons_eq]
      rw [show fieldEntryState k (⟨true, [], none, false, true⟩ : SState) =
          (⟨false, k.data ++ ['='], some k, false, false⟩ : SState) from rfl]
      rw [hlead]
      show serFields restV ⟨false, renderPairs [(k, t)], ck1, false, false⟩ = _
      rw [hrest]
      have hl : renderPairs [(k, t)] ++ renderTail (pairsF restV) =
          renderPairs (pairsF (.cons k v1 restV)) := by
        simp [pairsF, hpv, renderPairs, renderTail, renderPair, List.append_assoc]
      rw [hl]

/-- Serializing a nonempty repeated-key `i32` sequence field from a field
boundary (flags cleared, `is_first` off) appends exactly `&key=x` per
element: the retraction erases the just-written `[&]key=` and the element
loop rewrites it before each element. -/
theorem serFields_seq_i32 (key : String) (x : Int) (rest : List Int)
    (out : List Char) (ck : Option String) (hk : '&' ∉ key.data) :
    serFields (.cons key (.vSeq (i32Elems (x :: rest))) .nil)
        ⟨false, out, ck, false, false⟩ =
      .ok ⟨false, out ++ seqTail key (x :: rest), some key, false, false⟩ := by
  rw [serFields_cons_eq]
  have hfe : fieldEntryState key (⟨false, out, ck, false, false⟩ : SState) =
      ⟨false, out ++ '&' :: (key.data ++ ['=']), some key, false, false⟩ := by
    simp [fieldEntryState, List.append_assoc]
  rw [hfe]
  have hval : serValue (.vSeq (i32Elems (x :: rest)))
      ⟨false, out ++ '&' :: (key.data ++ ['=']), some key, false, false⟩ =
      .ok ⟨false, out ++ seqTail key (x :: rest), some key, false, false⟩ := by
    show serElems (.cons (.vI32 x) (i32Elems rest))
      ⟨false, out ++ '&' :: (key.data ++ ['=']), some key, true, false⟩ = _
    rw [show (⟨false, out ++ '&' :: (key.data ++ ['=']), some key, true, false⟩ :
          SState) =
        { (⟨false, out ++ '&' :: (key.data ++ ['=']), some key, false, false⟩ :
            SState) with
          is_first_elem_of_seq := true } from rfl]
    rw [serElems_cons_flag]
    show serElems (.cons (.vI32 x) (i32Elems rest))
      ⟨false, popAmp (out ++ '&' :: (key.data ++ ['='])), some key, false,
        false⟩ = _
    rw [popAmp_append_amp (amp_notMem_keyEq hk)]
    show serElems (i32Elems (x :: rest)) ⟨false, out, some key, false, false⟩ = _
    rw [serElems_i32 key (x :: rest) out false]
  rw [hval]
  rfl

/-- C3 (amended): for every record of the good class (a nonempty record of
separator-free scalar, optional-over-scalar, or nonempty nested-record fields
with distinct names whose first field writes a pair) extended with a final
repeated-key sequence field `ids = [a, b, c]` of in-range `i32` values, the
encoding is exactly the prefix record's rendering followed by
`&ids=a&ids=b&ids=c` — the claimed `ids=a&ids=b&ids=c` rendering joined on
with the usual separator, elements in list order — and decoding
`ids=a&ids=b&ids=c` into the sequence-field shape yields `[a, b, c]` in the
same order. (When the sequence field is instead the record's first field the
encoder emits a spurious leading `'&'`: see the counterexample.) -/
theorem seq_encode_decode (fsPre : FieldShapes) (pre : FieldVals) (a b c : Int)
    (hpre : goodTop (.sStruct fsPre) (.vStruct pre) = true)
    (ha : -2147483648 ≤ a ∧ a ≤ 2147483647)
    (hb : -2147483648 ≤ b ∧ b ≤ 2147483647)
    (hc : -2147483648 ≤ c ∧ c ≤ 2147483647) :
    to_string (.vStruct (appendF pre
        (.cons "ids" (.vSeq (i32Elems [a, b, c])) .nil))) =
      .ok ⟨renderPairs (pairsF pre) ++ seqTail "ids" [a, b, c]⟩ ∧
    (⟨seqTail "ids" [a, b, c]⟩ : String) =
      "&ids=" ++ intToText a ++ "&ids=" ++ intToText b ++ "&ids=" ++
        intToText c ∧
    from_str c3IdsShape ("ids=" ++ intToText a ++ "&ids=" ++ intToText b ++
        "&ids=" ++ intToText c) =
      .ok (.vStruct (.cons "ids" (.vSeq (i32Elems [a, b, c])) .nil)) := by
  refine ⟨?_, ?_, ?_⟩
  · obtain ⟨hpne, ck, hfields⟩ := serFields_top fsPre pre hpre
    have hseq := serFields_seq_i32 "ids" a [b, c]
      (renderPairs (pairsF pre)) ck (by decide)
    show (match serValue (.vStruct (appendF pre
        (.cons "ids" (.vSeq (i32Elems [a, b, c])) .nil))) serInit with
      | .error e => (.error e : Except Err String)
      | .ok st => .ok (⟨st.output⟩ : String)) = _
    rw [show serValue (.vStruct (appendF pre
        (.cons "ids" (.vSeq (i32Elems [a, b, c])) .nil))) serInit =
        serFields (appendF pre (.cons "ids" (.vSeq (i32Elems [a, b, c])) .nil))
          ⟨true, [], none, false, true⟩ from rfl]
    rw [serFields_append, hfields]
    show (match serFields (.cons "ids" (.vSeq (i32Elems [a, b, c])) .nil)
        ⟨false, renderPairs (pairsF pre), ck, false, false⟩ with
      | .error e => (.error e : Except Err String)
      | .ok st => .ok (⟨st.output⟩ : String)) = _
    rw [hseq]
  · apply String.ext
    show seqTail "ids" [a, b, c] = _
    simp only [String.data_append]
    simp [seqTail, List.append_assoc]
  · have hA := parseI32_intToText a ha.1 ha.2
    have hB := parseI32_intToText b hb.1 hb.2
    have hC := parseI32_intToText c hc.1 hc.2
    have hwfI : wfText "ids" = true := by decide
    have hS : ("ids=" ++ intToText a ++ "&ids=" ++ intToText b ++ "&ids=" ++
        intToText c : String) =
        ⟨renderPairs [("ids", intToText a), ("ids", intToText b),
          ("ids", intToText c)]⟩ := by
      apply String.ext
      show _ = renderPairs [("ids", intToText a), ("ids", intToText b),
        ("ids", intToText c)]
      simp only [String.data_append]
      simp [renderPairs, renderTail, renderPair, List.append_assoc]
    have hwfs : ∀ p ∈ [("ids", intToText a), ("ids", intToText b),
        ("ids", intToText c)], wfPair p = true := by
      intro p hp
      rcases List.mem_cons.mp hp with rfl | hp
      · simp [wfPair, hwfI, wfText_intToText]
      rcases List.mem_cons.mp hp with rfl | hp
      · simp [wfPair, hwfI, wfText_intToText]
      rcases List.mem_cons.mp hp with rfl | hp
      · simp [wfPair, hwfI, wfText_intToText]
      · simp at hp
    have hparse : parsePairs ("ids=" ++ intToText a ++ "&ids=" ++ intToText b ++
        "&ids=" ++ intToText c) =
        .ok [("ids", [intToText a, intToText b, intToText c])] := by
      rw [hS]
      show parsePiecesAux (splitOnChar '&' (renderPairs
        [("ids", intToText a), ("ids", intToText b), ("ids", intToText c)])) [] = _
      rw [splitAmp_renderPairs hwfs (by simp)]
      simp only [List.map_cons, List.map_nil, parsePiecesAux,
        splitEq_renderPair hwfI (wfText_intToText a),
        splitEq_renderPair hwfI (wfText_intToText b),
        splitEq_renderPair hwfI (wfText_intToText c), insertVal, stringMk_data]
      rfl
    have e1 : decodeShapeF 1 .sI32 ([] : AList) (some [intToText a]) =
        .ok (.vI32 a, none) := by
      show (match parseI32 (intToText a) with
        | .error e => (.error ⟨"invalid i32 literial", some e⟩ :
            Except Err (Value × Option (List String)))
        | .ok n => .ok (.vI32 n, none)) = .ok (.vI32 a, none)
      rw [hA]
    have e2 : decodeShapeF 1 .sI32 ([] : AList) (some [intToText b]) =
        .ok (.vI32 b, none) := by
      show (match parseI32 (intToText b) with
        | .error e => (.error ⟨"invalid i32 literial", some e⟩ :
            Except Err (Value × Option (List String)))
        | .ok n => .ok (.vI32 n, none)) = .ok (.vI32 b, none)
      rw [hB]
    have e3 : decodeShapeF 1 .sI32 ([] : AList) (some [intToText c]) =
        .ok (.vI32 c, none) := by
      show (match parseI32 (intToText c) with
        | .error e => (.error ⟨"invalid i32 literial", some e⟩ :
            Except Err (Value × Option (List String)))
        | .ok n => .ok (.vI32 n, none)) = .ok (.vI32 c, none)
      rw [hC]
    have e4 : decodeElemsF (decodeShapeF 1 .sI32) []
        [intToText a, intToText b, intToText c] = .ok (i32Elems [a, b, c]) := by
      simp only [decodeElemsF, e1, e2, e3]
      rfl
    have e5 : decodeShapeF 2 (.sSeq .sI32) ([] : AList)
        (some [intToText a, intToText b, intToText c]) =
        .ok (.vSeq (i32Elems [a, b, c]), some []) := by
      show (match decodeElemsF (decodeShapeF 1 .sI32) []
          [intToText a, intToText b, intToText c] with
        | .error e => (.error e : Except Err (Value × Option (List String)))
        | .ok ws => .ok (.vSeq ws, some [])) = _
      rw [e4]
    have e6 : decode c3IdsShape
        [("ids", [intToText a, intToText b, intToText c])] none =
        .ok (.vStruct (.cons "ids" (.vSeq (i32Elems [a, b, c])) .nil), none) := by
      show (match (match decodeShapeF 2 (.sSeq .sI32) ([] : AList)
            (some [intToText a, intToText b, intToText c]) with
          | .error e => (.error e :
              Except Err (FieldVals × AList × Option (List String)))
          | .ok (v, cv3) => .ok (.cons "ids" v .nil, [], cv3)) with
        | .error e => (.error e : Except Err (Value × Option (List String)))
        | .ok (fvs, _, _) => .ok (.vStruct fvs, none)) = _
      rw [e5]
    show (match parsePairs ("ids=" ++ intToText a ++ "&ids=" ++ intToText b ++
        "&ids=" ++ intToText c) with
      | .error e => (.error e : Except Err Value)
      | .ok m =>
        match decode c3IdsShape m none with
        | .error e => .error e
        | .ok (v, _) => .ok v) = _
    rw [hparse]
    show (match decode c3IdsShape
        [("ids", [intToText a, intToText b, intToText c])] none with
      | .error e => (.error e : Except Err Value)
      | .ok (v, _) => .ok v) = _
    rw [e6]

/-- Witness for the repeated-key sequence theorem: prefix record
`{name:"n"}` and elements `ids = [1, 2, 3]`. -/
theorem seq_encode_decode_witness :
    (goodTop (.sStruct (.cons "name" .sStr .nil))
        (.vStruct (.cons "name" (.vStr "n") .nil)) = true ∧
      (-2147483648 ≤ (1 : Int) ∧ (1 : Int) ≤ 2147483647)) ∧
    (to_string (.vStruct (appendF (.cons "name" (.vStr "n") .nil)
        (.cons "ids" (.vSeq (i32Elems [1, 2, 3])) .nil))) =
      .ok ⟨renderPairs (pairsF (.cons "name" (.vStr "n") .nil)) ++
        seqTail "ids" [1, 2, 3]⟩ ∧
      (⟨seqTail "ids" [1, 2, 3]⟩ : String) =
        "&ids=" ++ intToText 1 ++ "&ids=" ++ intToText 2 ++ "&ids=" ++
          intToText 3 ∧
      from_str c3IdsShape ("ids=" ++ intToText 1 ++ "&ids=" ++ intToText 2 ++
        "&ids=" ++ intToText 3) =
        .ok (.vStruct (.cons "ids" (.vSeq (i32Elems [1, 2, 3])) .nil))) :=
  ⟨⟨by decide, by decide⟩,
    seq_encode_decode (.cons "name" .sStr .nil) (.cons "name" (.vStr "n") .nil)
      1 2 3 (by decide) (by decide) (by decide) (by decide)⟩

end Theorems

end NbSerde
